import Mathlib

/-!
Verification of the Raytracer-2025 rendering core against its specification.

Shallow embedding conventions:
- f64 scalars are modelled by the real numbers; NaN has no counterpart, and the
  infinities of f64 are modelled by EReal exactly where the source stores them
  in Interval bounds (the constants EMPTY and UNIVERSE and the open upper bound
  of the integrator's shadow-acne interval).
- Fallible Rust code (functions returning Option, or panicking via expect,
  assert or an explicit panic branch) is modelled by Option-valued functions;
  a comment at each definition states which none stands for a panic.
- Randomness (the thread-local RNG) is modelled by explicit oracle parameters:
  each draw that the translated code performs is a function argument.
- Trait objects (dyn Hittable, dyn Material, dyn PDF, dyn Texture) are
  modelled by structures of functions, one field per trait method.
-/

namespace RT

/-! ## Vec3 (src/utils/vec3.rs) -/

/-- Triple of f64, modelled over the reals. -/
structure Vec3 where
  x : ℝ
  y : ℝ
  z : ℝ

/-- Point3 is an alias of Vec3 in the source. -/
abbrev Point3 := Vec3

/-- Color derefs to Vec3 in the source; we identify the two. -/
abbrev Color := Vec3

namespace Vec3

instance : Zero Vec3 := ⟨⟨0, 0, 0⟩⟩

instance : Add Vec3 := ⟨fun a b => ⟨a.x + b.x, a.y + b.y, a.z + b.z⟩⟩

instance : Sub Vec3 := ⟨fun a b => ⟨a.x - b.x, a.y - b.y, a.z - b.z⟩⟩

instance : Neg Vec3 := ⟨fun a => ⟨-a.x, -a.y, -a.z⟩⟩

/-- Componentwise product (impl_op Mul for Vec3). -/
instance : Mul Vec3 := ⟨fun a b => ⟨a.x * b.x, a.y * b.y, a.z * b.z⟩⟩

/-- Scalar product f64 * Vec3. -/
instance : SMul ℝ Vec3 := ⟨fun s a => ⟨s * a.x, s * a.y, s * a.z⟩⟩

/-- Vec3 * f64 from the source. -/
instance : HMul Vec3 ℝ Vec3 := ⟨fun a s => ⟨a.x * s, a.y * s, a.z * s⟩⟩

/-- Vec3 / f64 is defined in the source as (1.0 / rhs) * self. -/
noncomputable instance : HDiv Vec3 ℝ Vec3 := ⟨fun a s => (1 / s) • a⟩

/-- Sum of squared components. -/
def lengthSquared (v : Vec3) : ℝ := v.x * v.x + v.y * v.y + v.z * v.z

/-- Euclidean length, sqrt of lengthSquared. -/
noncomputable def length (v : Vec3) : ℝ := Real.sqrt v.lengthSquared

/-- Dot product. -/
def dot (v w : Vec3) : ℝ := v.x * w.x + v.y * w.y + v.z * w.z

/-- Cross product. -/
def cross (v w : Vec3) : Vec3 :=
  ⟨v.y * w.z - v.z * w.y, v.z * w.x - v.x * w.z, v.x * w.y - v.y * w.x⟩

@[simp] theorem zero_x : (0 : Vec3).x = 0 := rfl

@[simp] theorem zero_y : (0 : Vec3).y = 0 := rfl

@[simp] theorem zero_z : (0 : Vec3).z = 0 := rfl

@[simp] theorem add_x (a b : Vec3) : (a + b).x = a.x + b.x := rfl

@[simp] theorem add_y (a b : Vec3) : (a + b).y = a.y + b.y := rfl

@[simp] theorem add_z (a b : Vec3) : (a + b).z = a.z + b.z := rfl

@[simp] theorem sub_x (a b : Vec3) : (a - b).x = a.x - b.x := rfl

@[simp] theorem sub_y (a b : Vec3) : (a - b).y = a.y - b.y := rfl

@[simp] theorem sub_z (a b : Vec3) : (a - b).z = a.z - b.z := rfl

@[simp] theorem smul_x (s : ℝ) (v : Vec3) : (s • v).x = s * v.x := rfl

@[simp] theorem smul_y (s : ℝ) (v : Vec3) : (s • v).y = s * v.y := rfl

@[simp] theorem smul_z (s : ℝ) (v : Vec3) : (s • v).z = s * v.z := rfl

theorem neg_x (v : Vec3) : (-v).x = -v.x := rfl

theorem neg_y (v : Vec3) : (-v).y = -v.y := rfl

theorem neg_z (v : Vec3) : (-v).z = -v.z := rfl

theorem dot_comm (v w : Vec3) : v.dot w = w.dot v := by
  unfold dot; ring

theorem neg_dot (v w : Vec3) : (-v).dot w = -(v.dot w) := by
  unfold dot; rw [neg_x, neg_y, neg_z]; ring

theorem ext_iff {v w : Vec3} : v = w ↔ v.x = w.x ∧ v.y = w.y ∧ v.z = w.z := by
  constructor
  · rintro rfl; exact ⟨rfl, rfl, rfl⟩
  · rcases v with ⟨a, b, c⟩; rcases w with ⟨d, e, f⟩
    rintro ⟨h1, h2, h3⟩; simp_all

theorem lengthSquared_nonneg (v : Vec3) : 0 ≤ v.lengthSquared :=
  add_nonneg (add_nonneg (mul_self_nonneg _) (mul_self_nonneg _)) (mul_self_nonneg _)

theorem lengthSquared_eq_zero_iff {v : Vec3} : v.lengthSquared = 0 ↔ v = 0 := by
  unfold lengthSquared
  constructor
  · intro h
    rcases v with ⟨a, b, c⟩
    have ha : a = 0 := by nlinarith [sq_nonneg a, sq_nonneg b, sq_nonneg c]
    have hb : b = 0 := by nlinarith [sq_nonneg a, sq_nonneg b, sq_nonneg c]
    have hc : c = 0 := by nlinarith [sq_nonneg a, sq_nonneg b, sq_nonneg c]
    show (⟨a, b, c⟩ : Vec3) = (0 : Vec3)
    rw [ext_iff]; exact ⟨ha, hb, hc⟩
  · rintro rfl; show (0:ℝ) * 0 + 0 * 0 + 0 * 0 = 0; ring

theorem length_eq_zero_iff {v : Vec3} : v.length = 0 ↔ v = 0 := by
  unfold length
  rw [Real.sqrt_eq_zero (lengthSquared_nonneg v)]
  exact lengthSquared_eq_zero_iff

end Vec3

/-- Color constants from the source. -/
def Color.BLACK : Color := ⟨0, 0, 0⟩

/-- The white color constant. -/
def Color.WHITE : Color := ⟨1, 1, 1⟩

/-! ## UnitVec3 (src/utils/vec3.rs) -/

/-- Newtype wrapper around Vec3; the unit-length invariant is dynamic in the
source (from_vec3_raw performs no check), so the model carries no proof. -/
structure UnitVec3 where
  inner : Vec3

namespace UnitVec3

/-- The unchecked constructor from_vec3_raw. -/
def fromVec3Raw (v : Vec3) : UnitVec3 := ⟨v⟩

/-- from_vec3 divides by the length and then checks that every component of
the result is finite.  Over the reals the finiteness check fails exactly when
the length is zero (a zero source vector; NaN inputs have no counterpart in
this model), so the embedding tests the length directly. -/
noncomputable def fromVec3 (v : Vec3) : Option UnitVec3 :=
  if v.length = 0 then none else some ⟨v / v.length⟩

instance : Neg UnitVec3 := ⟨fun u => ⟨-u.inner⟩⟩

theorem fromVec3_eq_none_iff {v : Vec3} : fromVec3 v = none ↔ v = 0 := by
  unfold fromVec3
  constructor
  · intro hn
    by_cases h : v.length = 0
    · exact Vec3.length_eq_zero_iff.mp h
    · simp [h] at hn
  · rintro rfl
    have h0 : (0 : Vec3).length = 0 := Vec3.length_eq_zero_iff.mpr rfl
    simp [h0]

theorem fromVec3_eq_some {v : Vec3} (h : v ≠ 0) :
    fromVec3 v = some ⟨v / v.length⟩ := by
  unfold fromVec3
  rw [if_neg (fun h0 => h (Vec3.length_eq_zero_iff.mp h0))]

end UnitVec3

/-- reflect from the source: self - 2 * dot(self, normal) * normal. -/
def Vec3.reflect (v : Vec3) (normal : UnitVec3) : Vec3 :=
  v - (2 * Vec3.dot v normal.inner) • normal.inner

/-! ## Ray (src/utils/ray.rs plus the time field used by src/camera.rs) -/

/-- Ray with origin, direction (not required unit) and the motion-blur time
used by Camera::ray_color through Ray::new_with_time. -/
structure Ray where
  origin : Point3
  direction : Vec3
  time : ℝ

/-- at(t) = origin + t * direction. -/
def Ray.at (r : Ray) (t : ℝ) : Point3 := r.origin + t • r.direction

/-! ## Interval (src/utils/interval.rs)

f64 bounds can be infinite (the EMPTY and UNIVERSE constants), so the bounds
are modelled by EReal, the reals extended with both infinities. -/

/-- Closed interval of f64 endpoints, modelled over EReal. -/
structure Interval where
  min : EReal
  max : EReal

namespace Interval

/-- Interval::new sorts its two arguments. -/
noncomputable def new (a b : EReal) : Interval := ⟨Min.min a b, Max.max a b⟩

/-- Interval::from_range stores the endpoints unsorted. -/
def fromRange (a b : EReal) : Interval := ⟨a, b⟩

/-- Pairwise intersection; empty result is None. -/
noncomputable def intersect (s rhs : Interval) : Option Interval :=
  if Max.max s.min rhs.min ≤ Min.min s.max rhs.max
  then some ⟨Max.max s.min rhs.min, Min.min s.max rhs.max⟩ else none

/-- Union takes the componentwise min of mins and max of maxes. -/
noncomputable def union (s rhs : Interval) : Interval :=
  ⟨Min.min s.min rhs.min, Max.max s.max rhs.max⟩

/-- Membership test on an f64. -/
def contains (s : Interval) (t : EReal) : Prop := s.min ≤ t ∧ t ≤ s.max

/-- size = max(max - min, 0.0). -/
noncomputable def size (s : Interval) : EReal := Max.max (s.max - s.min) 0

/-- The empty interval constant: min = plus infinity, max = minus infinity. -/
def EMPTY : Interval := ⟨⊤, ⊥⟩

/-- The universe interval constant. -/
def UNIVERSE : Interval := ⟨⊥, ⊤⟩

/-- Interval inclusion, stated on the endpoint order. -/
def subset (s t : Interval) : Prop := t.min ≤ s.min ∧ s.max ≤ t.max

theorem subset_refl (s : Interval) : s.subset s := ⟨le_refl _, le_refl _⟩

end Interval

/-- C8 counterexample input, named so the statement is readable: the union of
the EMPTY constant with itself. -/
noncomputable def unionEmptyEmpty : Interval := Interval.union Interval.EMPTY Interval.EMPTY

/-- C8 (counterexample): Interval::union applied to the EMPTY constant twice
yields min = plus infinity and max = minus infinity, so min is not at most
max: the union of two intervals is not always non-empty. -/
theorem interval_union_empty_empty_is_empty :
    ¬ unionEmptyEmpty.min ≤ unionEmptyEmpty.max := by
  simp [unionEmptyEmpty, Interval.union, Interval.EMPTY]

/-- C8 (amended): Interval::union yields a non-empty interval whenever at
least one operand is non-empty: if a.min is at most a.max then the union of a
with any b satisfies min at most max. -/
theorem interval_union_nonempty (a b : Interval) (h : a.min ≤ a.max) :
    (Interval.union a b).min ≤ (Interval.union a b).max :=
  le_trans (min_le_left _ _) (le_trans h (le_max_left _ _))

/-- C8 witness: the amended theorem applied to the unit interval and EMPTY. -/
theorem interval_union_nonempty_witness :
    (Interval.fromRange 0 1).min ≤ (Interval.fromRange 0 1).max ∧
      (Interval.union (Interval.fromRange 0 1) Interval.EMPTY).min ≤
        (Interval.union (Interval.fromRange 0 1) Interval.EMPTY).max :=
  ⟨by simp [Interval.fromRange], interval_union_nonempty _ _ (by simp [Interval.fromRange])⟩

/-! ## PDF, ScatterRecord, Material (src/pdf.rs, src/material.rs, src/camera.rs)

Trait objects become structures of functions.  Every RNG draw a trait method
performs internally is folded into the object as an oracle field, fixed at
construction time; this determinises the code without changing any of the
dataflow the claims are about. -/

/-- A dyn PDF as used by Camera::ray_color: value returns the scalar density,
generate returns the sampled direction (the RNG draw behind generate is the
stored oracle field). -/
structure PDF where
  value : Vec3 → ℝ
  generate : UnitVec3

/-- ScatterType from src/material.rs: either a PDF to sample or a fixed ray. -/
inductive ScatterType where
  | pdf (pdfPtr : PDF)
  | ray (skipPdfRay : Ray)

/-- ScatterRecord from src/material.rs. -/
structure ScatterRecord where
  attenuation : Color
  scatterType : ScatterType

/-- The geometric part of a HitRecord (everything except the material
reference); materials only read these fields, never rec.mat, so passing
HitData to material methods breaks the benign circularity of the source. -/
structure HitData where
  p : Point3
  normal : UnitVec3
  t : ℝ
  u : ℝ
  v : ℝ
  frontFace : Bool

/-- A dyn Material: scatter, emitted and scattering_pdf. -/
structure Material where
  scatter : Ray → HitData → Option ScatterRecord
  emitted : Ray → HitData → Color
  scatteringPdf : Ray → HitData → Ray → ℝ

/-- The default trait implementations: scatter = None, emitted = BLACK,
scattering_pdf = 0. -/
def Material.defaultImpl : Material :=
  ⟨fun _ _ => none, fun _ _ => Color.BLACK, fun _ _ _ => 0⟩

/-- HitRecord: geometric data plus the borrowed material. -/
structure HitRecord where
  data : HitData
  mat : Material

/-- HitRecord::new from src/hit.rs: front_face is the sign test of the ray
direction against the geometric normal, and the stored normal is flipped when
the test fails. -/
noncomputable def HitRecord.new (p : Point3) (normal : UnitVec3) (mat : Material)
    (t u v : ℝ) (rIn : Ray) : HitRecord :=
  ⟨⟨p, if rIn.direction.dot normal.inner < 0 then normal else -normal, t, u, v,
      decide (rIn.direction.dot normal.inner < 0)⟩, mat⟩

/-- C4 counterexample input: a ray travelling tangentially to the surface
(direction orthogonal to the geometric normal). -/
noncomputable def tangentRec : HitRecord :=
  HitRecord.new 0 ⟨⟨0, 1, 0⟩⟩ Material.defaultImpl 1 0 0 ⟨0, ⟨1, 0, 0⟩, 0⟩

/-- C4 (counterexample): for a tangent ray (direction dot geometric normal
exactly zero) the stored normal is the flipped one and its dot product with
the ray direction is zero, not negative, contradicting the claim that
HitRecord.normal dot ray.dir is negative for all rays including tangent
ones. -/
theorem hitrecord_tangent_not_negative :
    ¬ tangentRec.data.normal.inner.dot ⟨1, 0, 0⟩ < 0 := by
  have h0 : ¬ (Vec3.dot ⟨1, 0, 0⟩ (⟨0, 1, 0⟩ : Vec3) < 0) := by
    simp [Vec3.dot]
  simp only [tangentRec, HitRecord.new, if_neg h0]
  show ¬ Vec3.dot (-(⟨0, 1, 0⟩ : Vec3)) ⟨1, 0, 0⟩ < 0
  rw [Vec3.neg_dot]
  simp [Vec3.dot]

/-- C4 (amended): front_face always equals the sign test of ray direction
against the geometric normal, and whenever that dot product is nonzero the
stored normal points strictly against the incoming ray; for tangent rays the
dot product of the stored normal with the direction is zero. -/
theorem hitrecord_new_orientation (p : Point3) (n : UnitVec3) (mat : Material)
    (t u v : ℝ) (r : Ray) :
    ((HitRecord.new p n mat t u v r).data.frontFace = true ↔
        r.direction.dot n.inner < 0)
    ∧ (r.direction.dot n.inner ≠ 0 →
        (HitRecord.new p n mat t u v r).data.normal.inner.dot r.direction < 0) := by
  constructor
  · simp [HitRecord.new]
  · intro hne
    rcases lt_trichotomy (r.direction.dot n.inner) 0 with hlt | heq | hgt
    · simp only [HitRecord.new, if_pos hlt]
      calc Vec3.dot n.inner r.direction = r.direction.dot n.inner := by
            simp [Vec3.dot]; ring
        _ < 0 := hlt
    · exact absurd heq hne
    · simp only [HitRecord.new, if_neg (not_lt.mpr (le_of_lt hgt))]
      show Vec3.dot (-n.inner) r.direction < 0
      rw [Vec3.neg_dot, Vec3.dot_comm]
      linarith

/-- C4 witness: the amended theorem at a head-on ray against the y normal. -/
theorem hitrecord_new_orientation_witness :
    ((HitRecord.new 0 ⟨⟨0, 1, 0⟩⟩ Material.defaultImpl 1 0 0
        ⟨0, ⟨0, -1, 0⟩, 0⟩).data.frontFace = true ↔
      Vec3.dot ⟨0, -1, 0⟩ (⟨0, 1, 0⟩ : Vec3) < 0)
    ∧ (HitRecord.new 0 ⟨⟨0, 1, 0⟩⟩ Material.defaultImpl 1 0 0
        ⟨0, ⟨0, -1, 0⟩, 0⟩).data.normal.inner.dot ⟨0, -1, 0⟩ < 0 := by
  have h := hitrecord_new_orientation 0 ⟨⟨0, 1, 0⟩⟩ Material.defaultImpl 1 0 0
    ⟨0, ⟨0, -1, 0⟩, 0⟩
  exact ⟨h.1, h.2 (by simp [Vec3.dot])⟩

/-! ## Fresnel helpers (src/utils/fresnel.rs, src/utils.rs) -/

/-- The generic lerp from src/utils.rs: a * (1 - t) + b * t. -/
def lerpR (a b t : ℝ) : ℝ := a * (1 - t) + b * t

/-- schlick_weight: the clamped fifth power of (1 - u). -/
noncomputable def schlickWeight (u : ℝ) : ℝ := (Min.min (Max.max (1 - u) 0) 1) ^ 5

/-- schlick_f64 from src/utils/fresnel.rs: lerp(1.0, schlick_weight(radians),
r0). -/
noncomputable def schlickF64 (r0 radians : ℝ) : ℝ := lerpR 1 (schlickWeight radians) r0

/-- C5 (code bug): at normal incidence (cosine 1) the factor
schlick_f64(0.04, c) used by the clearcoat lobe evaluates to 0.96, whereas
the Schlick approximation with R0 = 0.04 that the claim states evaluates to
0.04: the source passes the lerp endpoints in the wrong order, computing
(1 - r0) + r0 * (1 - c)^5 instead of r0 + (1 - r0) * (1 - c)^5. -/
theorem schlickF64_not_schlick :
    schlickF64 0.04 1 = 0.96
    ∧ (0.04 : ℝ) + (1 - 0.04) * (1 - 1) ^ 5 = 0.04
    ∧ schlickF64 0.04 1 ≠ (0.04 : ℝ) + (1 - 0.04) * (1 - 1) ^ 5 := by
  refine ⟨?_, by norm_num, ?_⟩ <;> simp [schlickF64, lerpR, schlickWeight] <;> norm_num

/-! ## Disney lobe selection (src/material/disney.rs) -/

/-- The parameter block of the Disney principled BSDF. -/
structure DisneyParameters where
  baseColor : Color
  roughness : ℝ
  anisotropic : ℝ
  sheen : ℝ
  sheenTint : ℝ
  clearcoat : ℝ
  clearcoatGloss : ℝ
  specularTint : ℝ
  metallic : ℝ
  ior : ℝ
  flatness : ℝ
  specTrans : ℝ
  diffTrans : ℝ
  thin : Bool

/-- calculate_lobe_pdfs: the normalised lobe selection probabilities,
returned in source order (specular, diffuse, clearcoat, transmission). -/
noncomputable def calculateLobePdfs (param : DisneyParameters) : ℝ × ℝ × ℝ × ℝ :=
  let metallicBrdf := param.metallic
  let specularBsdf := (1 - param.metallic) * param.specTrans
  let dielectricBrdf := (1 - param.specTrans) * (1 - param.metallic)
  let specularWeight := metallicBrdf + dielectricBrdf
  let transmissionWeight := specularBsdf
  let diffuseWeight := dielectricBrdf
  let clearcoatWeight := 1 * Min.min (Max.max param.clearcoat 0) 1
  let norm := 1 / (specularWeight + transmissionWeight + diffuseWeight + clearcoatWeight)
  (specularWeight * norm, diffuseWeight * norm, clearcoatWeight * norm,
    transmissionWeight * norm)

/-- The four sampling lobes DisneyPDF::generate can dispatch to. -/
inductive DisneyLobe where
  | brdf
  | clearcoat
  | diffuse
  | transmission

/-- The lobe-selection branch structure of DisneyPDF::generate, with the
uniform draw p as an oracle argument; none models the trailing panic branch.
The per-lobe samplers that the source then calls consume further randomness
and are outside this claim. -/
noncomputable def disneyGenerateLobe (param : DisneyParameters) (p : ℝ) :
    Option DisneyLobe :=
  match calculateLobePdfs param with
  | (pSpecular, pDiffuse, pClearcoat, pTransmission) =>
    if p ≤ pSpecular then some .brdf
    else if p ≤ pSpecular + pClearcoat then some .clearcoat
    else if p ≤ pSpecular + pDiffuse + pClearcoat then some .diffuse
    else if pTransmission ≥ 0 then some .transmission
    else none

/-- C9: for Disney parameters with metallic, spec_trans and clearcoat each in
the unit interval, the four lobe probabilities of calculate_lobe_pdfs are
non-negative (they are real numbers of the model, hence finite), the final
else-if guard p_transmission at least 0 always holds, and the panic branch of
DisneyPDF::generate is unreachable for every uniform draw. -/
theorem disney_generate_no_panic (param : DisneyParameters)
    (hm0 : 0 ≤ param.metallic) (hm1 : param.metallic ≤ 1)
    (hs0 : 0 ≤ param.specTrans) (hs1 : param.specTrans ≤ 1)
    (hc0 : 0 ≤ param.clearcoat) (hc1 : param.clearcoat ≤ 1) :
    (0 ≤ (calculateLobePdfs param).1 ∧ 0 ≤ (calculateLobePdfs param).2.1
      ∧ 0 ≤ (calculateLobePdfs param).2.2.1 ∧ 0 ≤ (calculateLobePdfs param).2.2.2)
    ∧ 0 ≤ (calculateLobePdfs param).2.2.2
    ∧ ∀ p : ℝ, disneyGenerateLobe param p ≠ none := by
  have hcc : Min.min (Max.max param.clearcoat 0) 1 = param.clearcoat := by
    rw [max_eq_left hc0, min_eq_left hc1]
  have hsum : 1 ≤ param.metallic + (1 - param.metallic) * param.specTrans
      + (1 - param.specTrans) * (1 - param.metallic)
      + ((1 - param.specTrans) * (1 - param.metallic) + param.clearcoat) := by
    nlinarith
  have hnorm : 0 <
      1 / (param.metallic + (1 - param.specTrans) * (1 - param.metallic)
        + (1 - param.metallic) * param.specTrans
        + (1 - param.specTrans) * (1 - param.metallic)
        + 1 * Min.min (Max.max param.clearcoat 0) 1) := by
    rw [hcc]
    apply div_pos one_pos
    nlinarith
  have hspec : 0 ≤ param.metallic + (1 - param.specTrans) * (1 - param.metallic) := by
    nlinarith
  have hdiff : 0 ≤ (1 - param.specTrans) * (1 - param.metallic) := by nlinarith
  have htrans : 0 ≤ (1 - param.metallic) * param.specTrans := by nlinarith
  have hclear : 0 ≤ 1 * Min.min (Max.max param.clearcoat 0) 1 := by
    rw [hcc]; linarith
  have hall : 0 ≤ (calculateLobePdfs param).1 ∧ 0 ≤ (calculateLobePdfs param).2.1
      ∧ 0 ≤ (calculateLobePdfs param).2.2.1 ∧ 0 ≤ (calculateLobePdfs param).2.2.2 := by
    refine ⟨mul_nonneg hspec (le_of_lt hnorm), mul_nonneg hdiff (le_of_lt hnorm),
      mul_nonneg hclear (le_of_lt hnorm), mul_nonneg htrans (le_of_lt hnorm)⟩
  refine ⟨hall, hall.2.2.2, ?_⟩
  intro p
  unfold disneyGenerateLobe
  rcases hlp : calculateLobePdfs param with ⟨a, b, c, d⟩
  have hd : 0 ≤ d := by
    have := hall.2.2.2
    rw [hlp] at this
    exact this
  simp only []
  split_ifs <;> simp_all

/-- C9 witness: the theorem at the default-like parameter point metallic 0,
spec_trans 0, clearcoat 0, with the uniform draw one half. -/
theorem disney_generate_no_panic_witness :
    disneyGenerateLobe
      ⟨Color.BLACK, 0.5, 0, 0, 0, 0, 0, 0, 0, 1.45, 0, 0, 0, false⟩ 0.5 ≠ none :=
  (disney_generate_no_panic ⟨Color.BLACK, 0.5, 0, 0, 0, 0, 0, 0, 0, 1.45, 0, 0, 0, false⟩
    (by norm_num) (by norm_num) (by norm_num) (by norm_num) (by norm_num)
    (by norm_num)).2.2 0.5

/-! ## AABB (src/aabb.rs) -/

/-- expand: grow each side by half the given delta. -/
noncomputable def Interval.expand (s : Interval) (delta : ℝ) : Interval :=
  ⟨s.min - ↑(delta / 2), s.max + ↑(delta / 2)⟩

/-- Axis-aligned bounding box: one interval per axis. -/
structure AABB where
  x : Interval
  y : Interval
  z : Interval

namespace AABB

/-- pad_to_minimums: expand every axis interval whose size is below 0.0001. -/
noncomputable def padToMinimums (b : AABB) : AABB :=
  ⟨if b.x.size < ((0.0001 : ℝ) : EReal) then b.x.expand 0.0001 else b.x,
   if b.y.size < ((0.0001 : ℝ) : EReal) then b.y.expand 0.0001 else b.y,
   if b.z.size < ((0.0001 : ℝ) : EReal) then b.z.expand 0.0001 else b.z⟩

/-- AABB::new pads the given axis intervals. -/
noncomputable def new (x y z : Interval) : AABB := padToMinimums ⟨x, y, z⟩

/-- AABB::from_points builds sorted axis intervals from two corners, padded. -/
noncomputable def fromPoints (a b : Point3) : AABB :=
  padToMinimums ⟨Interval.new ↑a.x ↑b.x, Interval.new ↑a.y ↑b.y, Interval.new ↑a.z ↑b.z⟩

/-- axis_interval; the source panics on an index above 2, which no caller in
the modelled code reaches, so indices above 2 fall through to the z axis. -/
def axisInterval (b : AABB) (n : ℕ) : Interval :=
  match n with
  | 0 => b.x
  | 1 => b.y
  | _ => b.z

/-- union is the componentwise interval union. -/
noncomputable def union (b rhs : AABB) : AABB :=
  ⟨b.x.union rhs.x, b.y.union rhs.y, b.z.union rhs.z⟩

/-- longest_axis from the source comparison ladder. -/
noncomputable def longestAxis (b : AABB) : ℕ :=
  if b.x.size > b.y.size then (if b.x.size > b.z.size then 0 else 2)
  else if b.y.size > b.z.size then 1
  else 2

/-- The everywhere-empty bounding box constant. -/
def EMPTY : AABB := ⟨Interval.EMPTY, Interval.EMPTY, Interval.EMPTY⟩

end AABB

/-- One axis of the slab test: adinv = 1 / d over the reals (so the model is
faithful for nonzero direction components; at d = 0 the source computes with
a signed infinity while real division yields 0), then the sorted interval of
the two slab parameters, with box bounds handled in EReal. -/
noncomputable def slabAxis (ax : Interval) (o d : ℝ) : Interval :=
  Interval.new ((ax.min - ↑o) * ↑(1 / d)) ((ax.max - ↑o) * ↑(1 / d))

/-- AABB::hit: fold the caller's interval through the three per-axis slab
intervals by intersection; hit iff the fold survives. -/
noncomputable def AABB.hit (b : AABB) (r : Ray) (rayT : Interval) : Bool :=
  (Option.bind
    (Option.bind (Interval.intersect rayT (slabAxis b.x r.origin.x r.direction.x))
      (fun acc => Interval.intersect acc (slabAxis b.y r.origin.y r.direction.y)))
    (fun acc => Interval.intersect acc (slabAxis b.z r.origin.z r.direction.z))).isSome

/-! ## Triangle creation (src/shapes/triangle.rs) -/

/-- Triangle as stored by the source; the material reference is the abstract
Material object. -/
structure Triangle where
  anchor : Point3
  u : Vec3
  v : Vec3
  w : Vec3
  mat : Material
  bbox : AABB
  normal : UnitVec3
  parmD : ℝ
  area : ℝ

/-- Planar::cal_bounding_box for Triangle. -/
noncomputable def Triangle.calBoundingBox (anchor u v : Vec3) : AABB :=
  AABB.union (AABB.fromPoints anchor (anchor + u)) (AABB.fromPoints anchor (anchor + v))

/-- Triangle::new.  The source calls expect on UnitVec3::from_vec3(cross(u,v))
and therefore panics when the cross product cannot be normalised; the panic is
modelled by none (the claim, and the caller in src/shapes/obj.rs which
matches on Some, expect an Option-returning constructor instead). -/
noncomputable def Triangle.new (anchor u v : Vec3) (mat : Material) : Option Triangle :=
  let n := Vec3.cross u v
  (UnitVec3.fromVec3 n).map fun normal =>
    { anchor := anchor, u := u, v := v, w := n / n.lengthSquared, mat := mat,
      bbox := Triangle.calBoundingBox anchor u v, normal := normal,
      parmD := normal.inner.dot anchor, area := n.length / 2 }

/-- C7 (code bug): for every anchor and every pair of parallel edge vectors
u and k * u (collinear vertices), the cross product is the zero vector, the
normalisation fails, and Triangle::new aborts through its expect call (the
none of this model) instead of returning the None value the claim and the
obj.rs caller require. -/
theorem triangle_new_collinear_panics (anchor u : Vec3) (k : ℝ) (mat : Material) :
    Triangle.new anchor u (k • u) mat = none := by
  have hcross : Vec3.cross u (k • u) = 0 := by
    rw [Vec3.ext_iff]
    refine ⟨?_, ?_, ?_⟩ <;>
      (dsimp only [Vec3.cross, Vec3.smul_x, Vec3.smul_y, Vec3.smul_z,
        Vec3.zero_x, Vec3.zero_y, Vec3.zero_z]; ring)
  have h0 : UnitVec3.fromVec3 (0 : Vec3) = none := UnitVec3.fromVec3_eq_none_iff.mpr rfl
  unfold Triangle.new
  rw [hcross]
  simp [h0]

/-! ## Metal::scatter (src/material.rs) -/

/-- Metal::scatter.  fuzzDir is the oracle for the random_unit_vector draw.
The two question-mark operators of the source become Option.bind; the second
normalisation can only fail when the stored normal violates the UnitVec3
invariant. -/
noncomputable def Metal.scatter (albedo : Color) (fuzz : ℝ) (fuzzDir : UnitVec3)
    (rIn : Ray) (rec : HitData) : Option ScatterRecord :=
  Option.bind (UnitVec3.fromVec3 rIn.direction) fun unitDir =>
    Option.map (fun reflectedUnit : UnitVec3 =>
        let reflected := reflectedUnit.inner + fuzz • fuzzDir.inner
        { attenuation := albedo,
          scatterType := ScatterType.ray ⟨rec.p, reflected, rIn.time⟩ })
      (UnitVec3.fromVec3 (Vec3.reflect unitDir.inner rec.normal))

/-- Squared length scales with the square of a scalar multiple. -/
theorem Vec3.lengthSquared_smul (s : ℝ) (v : Vec3) :
    (s • v).lengthSquared = s ^ 2 * v.lengthSquared := by
  unfold Vec3.lengthSquared
  simp only [Vec3.smul_x, Vec3.smul_y, Vec3.smul_z]
  ring

/-- Normalising a nonzero vector yields squared length one. -/
theorem Vec3.lengthSquared_normalize {v : Vec3} (h : v ≠ 0) :
    (v / v.length).lengthSquared = 1 := by
  have hls : 0 < v.lengthSquared :=
    lt_of_le_of_ne (Vec3.lengthSquared_nonneg v)
      (fun h0 => h (Vec3.lengthSquared_eq_zero_iff.mp h0.symm))
  have hlen : 0 < v.length := Real.sqrt_pos.mpr hls
  have hsq : v.length ^ 2 = v.lengthSquared := Real.sq_sqrt (le_of_lt hls)
  show ((1 / v.length) • v).lengthSquared = 1
  rw [Vec3.lengthSquared_smul]
  rw [div_pow, one_pow, hsq]
  field_simp

/-- Reflecting a unit vector in a unit normal preserves squared length. -/
theorem Vec3.lengthSquared_reflect {u : Vec3} {n : UnitVec3}
    (hu : u.lengthSquared = 1) (hn : n.inner.lengthSquared = 1) :
    (Vec3.reflect u n).lengthSquared = 1 := by
  unfold Vec3.reflect Vec3.lengthSquared Vec3.dot at *
  simp only [Vec3.sub_x, Vec3.sub_y, Vec3.sub_z, Vec3.smul_x, Vec3.smul_y, Vec3.smul_z]
  linear_combination hu +
    4 * (u.x * n.inner.x + u.y * n.inner.y + u.z * n.inner.z) ^ 2 * hn

/-- C10: Metal::scatter returns None exactly when the incoming direction
cannot be normalised (the zero vector in the real-number model; the
non-finite cases of f64 have no counterpart), and for every normalisable
direction it returns Some scatter record of deterministic Ray type with
attenuation equal to the metal's albedo, provided the stored hit normal
satisfies the UnitVec3 length invariant. -/
theorem metal_scatter_spec (albedo : Color) (fuzz : ℝ) (fuzzDir : UnitVec3)
    (rIn : Ray) (rec : HitData) (hn : rec.normal.inner.lengthSquared = 1) :
    (Metal.scatter albedo fuzz fuzzDir rIn rec = none ↔ rIn.direction = 0)
    ∧ (rIn.direction ≠ 0 → ∃ out : Ray,
        Metal.scatter albedo fuzz fuzzDir rIn rec =
          some ⟨albedo, ScatterType.ray out⟩) := by
  have hmain : ∀ _ : rIn.direction ≠ 0, ∃ out : Ray,
      Metal.scatter albedo fuzz fuzzDir rIn rec = some ⟨albedo, ScatterType.ray out⟩ := by
    intro hdir
    have h1 : UnitVec3.fromVec3 rIn.direction =
        some ⟨rIn.direction / rIn.direction.length⟩ := UnitVec3.fromVec3_eq_some hdir
    have hu : (rIn.direction / rIn.direction.length).lengthSquared = 1 :=
      Vec3.lengthSquared_normalize hdir
    have hraw : (Vec3.reflect (rIn.direction / rIn.direction.length) rec.normal).lengthSquared
        = 1 := Vec3.lengthSquared_reflect hu hn
    have hraw0 : Vec3.reflect (rIn.direction / rIn.direction.length) rec.normal ≠ 0 := by
      intro h0
      rw [h0] at hraw
      rw [Vec3.lengthSquared_eq_zero_iff.mpr rfl] at hraw
      exact zero_ne_one hraw
    have h2 := UnitVec3.fromVec3_eq_some hraw0
    refine ⟨⟨rec.p,
      (Vec3.reflect (rIn.direction / rIn.direction.length) rec.normal /
          (Vec3.reflect (rIn.direction / rIn.direction.length) rec.normal).length)
        + fuzz • fuzzDir.inner, rIn.time⟩, ?_⟩
    unfold Metal.scatter
    rw [h1]
    show Option.map _ (UnitVec3.fromVec3 _) = _
    rw [h2]
    rfl
  constructor
  · constructor
    · intro hnone
      by_contra hdir
      obtain ⟨out, hout⟩ := hmain hdir
      rw [hout] at hnone
      exact Option.noConfusion hnone
    · intro h0
      unfold Metal.scatter
      rw [UnitVec3.fromVec3_eq_none_iff.mpr h0]
      rfl
  · exact hmain

/-- C10 witness: the theorem at a concrete mirror hit, where the scatter
succeeds. -/
theorem metal_scatter_spec_witness :
    (¬ (⟨0, -1, 0⟩ : Vec3) = 0)
    ∧ ∃ out : Ray,
        Metal.scatter ⟨0.8, 0.6, 0.2⟩ 0 ⟨⟨1, 0, 0⟩⟩ ⟨⟨0, 1, 0⟩, ⟨0, -1, 0⟩, 0⟩
          ⟨0, ⟨⟨0, 1, 0⟩⟩, 1, 0, 0, true⟩ =
          some ⟨⟨0.8, 0.6, 0.2⟩, ScatterType.ray out⟩ := by
  have hd : ¬ (⟨0, -1, 0⟩ : Vec3) = 0 := by
    intro h
    have h2 := congrArg Vec3.y h
    norm_num at h2
  have hn : ((⟨⟨0, 1, 0⟩⟩ : UnitVec3)).inner.lengthSquared = 1 := by
    unfold Vec3.lengthSquared
    norm_num
  exact ⟨hd, (metal_scatter_spec ⟨0.8, 0.6, 0.2⟩ 0 ⟨⟨1, 0, 0⟩⟩ ⟨⟨0, 1, 0⟩, ⟨0, -1, 0⟩, 0⟩
    ⟨0, ⟨⟨0, 1, 0⟩⟩, 1, 0, 0, true⟩ hn).2 hd⟩

/-! ## Camera::ray_color (src/camera.rs, src/pdf.rs) -/

/-- The lights Hittable as seen through HittablePDF: pdf_value and random. -/
structure Lights where
  pdfValue : Point3 → Vec3 → ℝ
  random : Point3 → UnitVec3

/-- HittablePDF::new + its PDF implementation. -/
def hittablePDF (objects : Lights) (origin : Point3) : PDF :=
  ⟨fun direction => objects.pdfValue origin direction, objects.random origin⟩

/-- MixturePDF: the half-half density mix; generate picks the first component
when the oracle coin (the draw Random::f64() compared against 0.5) is true. -/
noncomputable def mixturePDF (coin : Bool) (p0 p1 : PDF) : PDF :=
  ⟨fun direction => 0.5 * p0.value direction + 0.5 * p1.value direction,
   if coin then p0.generate else p1.generate⟩

/-- The world as a dyn Hittable: its hit method. -/
structure World where
  hit : Ray → Interval → Option HitRecord

/-- The interval 0.001 to plus infinity the integrator queries the world
with (the shadow-acne bias). -/
def shadowAcneInterval : Interval := Interval.fromRange ((0.001 : ℝ) : EReal) ⊤

/-- Camera::ray_color.  Differences to the source forced by the embedding:
the background is the camera's environment as a function of the ray; coins
is the oracle stream of MixturePDF coin flips, indexed by remaining depth;
the assert_ne of a zero pdf value is the none branch (a panic in every build
profile); the trailing NaN assertion has no counterpart over the reals. -/
noncomputable def rayColor (world : World) (lights : Option Lights)
    (background : Ray → Color) (coins : ℕ → Bool) : ℕ → Ray → Option Color
  | 0, _ => some Color.BLACK
  | Nat.succ depth, r =>
    match world.hit r shadowAcneInterval with
    | none => some (background r)
    | some rec =>
      let colorFromEmission := rec.mat.emitted r rec.data
      match rec.mat.scatter r rec.data with
      | none => some colorFromEmission
      | some scatterRecord =>
        match scatterRecord.scatterType with
        | ScatterType.pdf pdfPtr =>
          let mixedPdf :=
            match lights with
            | some lightsHit =>
                mixturePDF (coins depth) pdfPtr (hittablePDF lightsHit rec.data.p)
            | none => pdfPtr
          let scattered : Ray := ⟨rec.data.p, mixedPdf.generate.inner, r.time⟩
          let pdfValue : ℝ := mixedPdf.value scattered.direction
          if pdfValue = 0 then none
          else
            Option.map (fun sampleColor =>
                colorFromEmission +
                  ((scatterRecord.attenuation *
                      rec.mat.scatteringPdf r rec.data scattered : Vec3) * sampleColor)
                    / pdfValue)
              (rayColor world lights background coins depth scattered)
        | ScatterType.ray skipPdfRay =>
          Option.map (fun c => colorFromEmission + scatterRecord.attenuation * c)
            (rayColor world lights background coins depth skipPdfRay)

/-- Mapping a function over an Option preserves isSome. -/
theorem optionIsSomeMap {α β : Type _} (f : α → β) (o : Option α)
    (h : o.isSome = true) : (Option.map f o).isSome = true := by
  cases o with
  | none => cases h
  | some a => rfl

/-- C1: the recursive contract of Camera::ray_color at its three base cases
and the deterministic-scatter case: depth zero yields black; a miss over the
shadow-acne interval yields the background on the ray; a purely emissive hit
(scatter None) yields exactly the emitted colour; a deterministic Ray-type
scatter yields emitted plus attenuation times the recursive radiance of the
scattered ray at depth minus one. -/
theorem rayColor_contract (W : World) (lights : Option Lights) (bg : Ray → Color)
    (coins : ℕ → Bool) (r : Ray) (depth : ℕ) :
    (rayColor W lights bg coins 0 r = some Color.BLACK)
    ∧ (W.hit r shadowAcneInterval = none →
        rayColor W lights bg coins (depth + 1) r = some (bg r))
    ∧ (∀ rec, W.hit r shadowAcneInterval = some rec →
        rec.mat.scatter r rec.data = none →
        rayColor W lights bg coins (depth + 1) r = some (rec.mat.emitted r rec.data))
    ∧ (∀ rec sr next, W.hit r shadowAcneInterval = some rec →
        rec.mat.scatter r rec.data = some sr →
        sr.scatterType = ScatterType.ray next →
        rayColor W lights bg coins (depth + 1) r =
          Option.map (fun c => rec.mat.emitted r rec.data + sr.attenuation * c)
            (rayColor W lights bg coins depth next)) := by
  refine ⟨rfl, ?_, ?_, ?_⟩
  · intro h
    simp only [rayColor, h]
  · intro rec hh hs
    simp only [rayColor, hh, hs]
  · intro rec sr next hh hs hst
    simp only [rayColor, hh, hs, hst]

/-- Sky background used by the concrete integrator scenes. -/
def bgSky : Ray → Color := fun _ => ⟨0.5, 0.7, 1.0⟩

/-- A world with no primitives: hit always misses. -/
def worldEmptyW : World := ⟨fun _ _ => none⟩

/-- A purely emissive material: scatter None, fixed emitted colour. -/
def emissiveMat : Material := ⟨fun _ _ => none, fun _ _ => ⟨1, 2, 3⟩, fun _ _ _ => 0⟩

/-- A hit record carrying the emissive material. -/
def emissiveRec : HitRecord := ⟨⟨0, ⟨⟨0, 1, 0⟩⟩, 1, 0, 0, true⟩, emissiveMat⟩

/-- A world whose every hit is the emissive record. -/
def worldEmissive : World := ⟨fun _ _ => some emissiveRec⟩

/-- A deterministic mirror material (Ray-type scatter). -/
def mirrorMat : Material :=
  ⟨fun rIn hd => some ⟨⟨0.5, 0.5, 0.5⟩, ScatterType.ray ⟨hd.p, rIn.direction, rIn.time⟩⟩,
   fun _ _ => Color.BLACK, fun _ _ _ => 0⟩

/-- A hit record carrying the mirror material. -/
def mirrorRec : HitRecord := ⟨⟨0, ⟨⟨0, 1, 0⟩⟩, 1, 0, 0, true⟩, mirrorMat⟩

/-- A world whose every hit is the mirror record. -/
def worldMirror : World := ⟨fun _ _ => some mirrorRec⟩

/-- A fixed primary ray for the concrete scenes. -/
def ray0 : Ray := ⟨0, ⟨0, 0, -1⟩, 0⟩

/-- A fixed coin oracle. -/
def coins0 : ℕ → Bool := fun _ => true

/-- C1 witness: the contract applied to concrete scenes covering all four
cases: depth zero, a missing world, an emissive hit, and a mirror hit. -/
theorem rayColor_contract_witness :
    rayColor worldEmptyW none bgSky coins0 0 ray0 = some Color.BLACK
    ∧ rayColor worldEmptyW none bgSky coins0 4 ray0 = some (bgSky ray0)
    ∧ rayColor worldEmissive none bgSky coins0 4 ray0 = some ⟨1, 2, 3⟩
    ∧ rayColor worldMirror none bgSky coins0 1 ray0 =
        Option.map (fun c => Color.BLACK + (⟨0.5, 0.5, 0.5⟩ : Color) * c)
          (rayColor worldMirror none bgSky coins0 0 ⟨0, ⟨0, 0, -1⟩, 0⟩) := by
  refine ⟨(rayColor_contract worldEmptyW none bgSky coins0 ray0 0).1,
    (rayColor_contract worldEmptyW none bgSky coins0 ray0 3).2.1 rfl,
    (rayColor_contract worldEmissive none bgSky coins0 ray0 3).2.2.1 emissiveRec rfl rfl,
    ?_⟩
  exact (rayColor_contract worldMirror none bgSky coins0 ray0 0).2.2.2 mirrorRec
    ⟨⟨0.5, 0.5, 0.5⟩, ScatterType.ray ⟨0, ⟨0, 0, -1⟩, 0⟩⟩ ⟨0, ⟨0, 0, -1⟩, 0⟩ rfl rfl rfl

/-- A material whose scatter PDF has density zero everywhere (a legal dyn
PDF per the data model: densities are zero outside a lobe's support). -/
def zeroPdfMat : Material :=
  ⟨fun _ _ => some ⟨Color.WHITE, ScatterType.pdf ⟨fun _ => 0, ⟨⟨1, 0, 0⟩⟩⟩⟩,
   fun _ _ => Color.BLACK, fun _ _ _ => 0⟩

/-- A hit record carrying the zero-density material. -/
def zeroPdfRec : HitRecord := ⟨⟨0, ⟨⟨0, 1, 0⟩⟩, 1, 0, 0, true⟩, zeroPdfMat⟩

/-- A world whose every hit is the zero-density record. -/
def worldZeroPdf : World := ⟨fun _ _ => some zeroPdfRec⟩

/-- C3 (counterexample): Camera::ray_color does raise.  With a material whose
scatter PDF evaluates to zero at the sampled direction, the assert_ne of the
source (active in release builds as well) fires, modelled by the none
result: the integrator is not panic-free for every input ray. -/
theorem rayColor_zero_pdf_panics :
    rayColor worldZeroPdf none bgSky coins0 1 ray0 = none := by
  simp only [rayColor, worldZeroPdf, zeroPdfRec, zeroPdfMat]
  norm_num

/-- C3 (amended): the zero-pdf suppression the spec describes lives in
Disney::evaluate_disney, not in the integrator; Camera::ray_color instead
asserts.  For every scene whose scatter PDFs are strictly positive and whose
light densities are non-negative, ray_color returns a colour at every depth
and every ray; when the mixed density at the sampled direction is zero it
panics in every build profile. -/
theorem rayColor_total_of_positive_pdfs (W : World) (lights : Option Lights)
    (bg : Ray → Color) (coins : ℕ → Bool)
    (hmat : ∀ r rec, W.hit r shadowAcneInterval = some rec →
      ∀ sr, rec.mat.scatter r rec.data = some sr →
      ∀ pb, sr.scatterType = ScatterType.pdf pb → ∀ d, 0 < pb.value d)
    (hlig : ∀ L, lights = some L → ∀ o d, 0 ≤ L.pdfValue o d) :
    ∀ depth r, (rayColor W lights bg coins depth r).isSome = true := by
  intro depth
  induction depth with
  | zero => intro r; simp [rayColor]
  | succ d ih =>
    intro r
    rcases hh : W.hit r shadowAcneInterval with _ | rec
    · simp only [rayColor, hh, Option.isSome_some]
    · rcases hs : rec.mat.scatter r rec.data with _ | sr
      · simp only [rayColor, hh, hs, Option.isSome_some]
      · rcases hst : sr.scatterType with pb | next
        · have hpos : ∀ dvec, 0 < pb.value dvec := hmat r rec hh sr hs pb hst
          rcases hl : lights with _ | L
          · subst hl
            simp only [rayColor, hh, hs, hst]
            rw [if_neg (ne_of_gt (hpos _))]
            exact optionIsSomeMap _ _ (ih _)
          · have hlv : ∀ o dvec, 0 ≤ L.pdfValue o dvec := hlig L hl
            subst hl
            simp only [rayColor, hh, hs, hst]
            have hmix : ∀ dvec, 0 <
                (mixturePDF (coins d) pb (hittablePDF L rec.data.p)).value dvec := by
              intro dvec
              show 0 < 0.5 * pb.value dvec + 0.5 * L.pdfValue rec.data.p dvec
              have := hpos dvec
              have := hlv rec.data.p dvec
              linarith
            rw [if_neg (ne_of_gt (hmix _))]
            exact optionIsSomeMap _ _ (ih _)
        · simp only [rayColor, hh, hs, hst]
          exact optionIsSomeMap _ _ (ih _)

/-- An isotropic-like material whose scatter PDF density is the constant
uniform sphere density, strictly positive. -/
noncomputable def spherePdfMat : Material :=
  ⟨fun _ _ => some ⟨Color.WHITE, ScatterType.pdf ⟨fun _ => 1 / (4 * Real.pi), ⟨⟨1, 0, 0⟩⟩⟩⟩,
   fun _ _ => Color.BLACK, fun _ _ _ => 1 / (4 * Real.pi)⟩

/-- A hit record carrying the uniform-sphere material. -/
noncomputable def spherePdfRec : HitRecord := ⟨⟨0, ⟨⟨0, 1, 0⟩⟩, 1, 0, 0, true⟩, spherePdfMat⟩

/-- A world whose every hit is the uniform-sphere record. -/
noncomputable def worldSpherePdf : World := ⟨fun _ _ => some spherePdfRec⟩

/-- C3 witness: the amended totality theorem applied to the concrete
uniform-sphere scene at depth two. -/
theorem rayColor_total_of_positive_pdfs_witness :
    (rayColor worldSpherePdf none bgSky coins0 2 ray0).isSome = true := by
  have hmat : ∀ r rec, worldSpherePdf.hit r shadowAcneInterval = some rec →
      ∀ sr, rec.mat.scatter r rec.data = some sr →
      ∀ pb, sr.scatterType = ScatterType.pdf pb → ∀ d, 0 < pb.value d := by
    intro r rec hh sr hs pb hst d
    have hh' : some spherePdfRec = some rec := hh
    have hrec := Option.some.inj hh'
    subst hrec
    have hs' : some (⟨Color.WHITE,
        ScatterType.pdf ⟨fun _ => 1 / (4 * Real.pi), ⟨⟨1, 0, 0⟩⟩⟩⟩ : ScatterRecord)
        = some sr := hs
    have hsr := Option.some.inj hs'
    subst hsr
    have hst' : ScatterType.pdf (⟨fun _ => 1 / (4 * Real.pi), ⟨⟨1, 0, 0⟩⟩⟩ : PDF)
        = ScatterType.pdf pb := hst
    cases hst'
    show (0 : ℝ) < 1 / (4 * Real.pi)
    positivity
  exact rayColor_total_of_positive_pdfs worldSpherePdf none bgSky coins0 hmat
    (fun L hL => by cases hL) 2 ray0

/-! ## ConstantMedium (src/volume.rs, src/material.rs Isotropic) -/

/-- A dyn Texture: value(u, v, p). -/
def Texture : Type := ℝ → ℝ → Point3 → Color

/-- The real coercion into EReal is monotone. -/
theorem erealCoeMono : Monotone (fun x : ℝ => (x : EReal)) :=
  fun _ _ h => EReal.coe_le_coe_iff.mpr h

/-- Coercion commutes with max. -/
theorem erealCoeMax (a b : ℝ) : ((Max.max a b : ℝ) : EReal) = Max.max (↑a) (↑b) :=
  erealCoeMono.map_max

/-- Coercion commutes with min. -/
theorem erealCoeMin (a b : ℝ) : ((Min.min a b : ℝ) : EReal) = Min.min (↑a) (↑b) :=
  erealCoeMono.map_min

/-- Isotropic (src/material.rs): scatter wraps the uniform sphere density;
gen is the oracle of the random_unit_vector draw inside SpherePDF::generate.
The source also stores the albedo texture lookup in the SpherePDF it builds;
the camera-era PDF trait modelled here carries only the scalar density, so
the lookup is performed and dropped. -/
noncomputable def isotropicMaterial (texture : Texture) (gen : UnitVec3) : Material :=
  ⟨fun _ hd =>
      let _albedo := texture hd.u hd.v hd.p
      some ⟨Color.WHITE, ScatterType.pdf ⟨fun _ => 1 / (4 * Real.pi), gen⟩⟩,
   fun _ _ => Color.BLACK,
   fun _ _ _ => 1 / (4 * Real.pi)⟩

/-- ConstantMedium::hit (src/volume.rs).  boundary is the wrapped dyn
Hittable's hit method; uRand is the oracle of the Random::f64 draw; the two
clamp_assign calls become max and min in EReal (the caller's interval bounds
may be infinite); the EReal values are converted back to reals only after
the emptiness guard has ensured they are finite. -/
noncomputable def constantMediumHit (boundary : Ray → Interval → Option HitRecord)
    (negInvDensity : ℝ) (phaseFunction : Material) (uRand : ℝ)
    (r : Ray) (interval : Interval) : Option HitRecord :=
  match boundary r Interval.UNIVERSE with
  | none => none
  | some rec1 =>
    match boundary r (Interval.new (↑(rec1.data.t + 0.0001)) ⊤) with
    | none => none
    | some rec2 =>
      let t1 : EReal := Max.max ↑rec1.data.t interval.min
      let t2 : EReal := Min.min ↑rec2.data.t interval.max
      if t1 ≥ t2 then none
      else
        let t1 : EReal := Max.max t1 0
        let rayLength : ℝ := r.direction.length
        let distanceInsideBoundary : ℝ := (t2.toReal - t1.toReal) * rayLength
        let hitDistance : ℝ := negInvDensity * Real.log uRand
        if hitDistance > distanceInsideBoundary then none
        else
          let t : ℝ := t1.toReal + hitDistance / rayLength
          some (HitRecord.new (r.at t) (UnitVec3.fromVec3Raw ⟨1, 0, 0⟩)
            phaseFunction t 0 0 r)

/-- ConstantMedium::new_with_tex followed by hit: the density turns into
neg_inv_density = -1 / density and the phase function is the Isotropic
material over the albedo texture. -/
noncomputable def constantMediumWithTexHit (boundary : Ray → Interval → Option HitRecord)
    (density : ℝ) (texture : Texture) (gen : UnitVec3) (uRand : ℝ)
    (r : Ray) (interval : Interval) : Option HitRecord :=
  constantMediumHit boundary (-(1 / density)) (isotropicMaterial texture gen) uRand r interval

/-- The concrete ray of the medium scenes: along positive x. -/
def cmRay : Ray := ⟨0, ⟨1, 0, 0⟩, 0⟩

/-- A boundary hit record at parameter one. -/
def cmRec1 : HitRecord := ⟨⟨0, ⟨⟨0, 1, 0⟩⟩, 1, 0, 0, true⟩, Material.defaultImpl⟩

/-- A boundary hit record at parameter three. -/
def cmRec2 : HitRecord := ⟨⟨0, ⟨⟨0, 1, 0⟩⟩, 3, 0, 0, true⟩, Material.defaultImpl⟩

/-- A convex boundary seen from cmRay: entry at t = 1 (returned for the
UNIVERSE query, whose lower bound is bottom), exit at t = 3 (returned for
the restarted query). -/
noncomputable def cmBoundary : Ray → Interval → Option HitRecord :=
  fun _ interval => if interval.min = (⊥ : EReal) then some cmRec1 else some cmRec2

/-- The constant white albedo texture of the medium scenes. -/
def cmTexW : Texture := fun _ _ _ => Color.WHITE

/-- The oracle of the phase-function sampler. -/
def cmGen : UnitVec3 := ⟨⟨1, 0, 0⟩⟩

/-- The free-flight oracle draw: exp(-1), so the sampled distance is 1. -/
noncomputable def cmU : ℝ := Real.exp (-1)

/-- The caller's interval 0 to 100 of the medium scenes. -/
def cmInterval : Interval := Interval.fromRange ((0 : ℝ) : EReal) ((100 : ℝ) : EReal)

/-- The boundary answers the UNIVERSE query with the entry record. -/
theorem cmBoundary_universe : cmBoundary cmRay Interval.UNIVERSE = some cmRec1 := by
  simp [cmBoundary, Interval.UNIVERSE]

/-- The boundary answers the restarted query with the exit record. -/
theorem cmBoundary_second :
    cmBoundary cmRay (Interval.new (↑((1 : ℝ) + 0.0001)) ⊤) = some cmRec2 := by
  have hne : (Interval.new (↑((1 : ℝ) + 0.0001)) ⊤).min ≠ (⊥ : EReal) := by
    show Min.min _ _ ≠ ⊥
    rw [min_eq_left le_top]
    exact EReal.coe_ne_bot _
  show (if (Interval.new (↑((1 : ℝ) + 0.0001)) ⊤).min = (⊥ : EReal)
    then some cmRec1 else some cmRec2) = some cmRec2
  rw [if_neg hne]

/-- The length of the concrete ray direction is one. -/
theorem cmRay_length : cmRay.direction.length = 1 := by
  show Real.sqrt ((1 : ℝ) * 1 + 0 * 0 + 0 * 0) = 1
  norm_num

/-- The sampled free-flight distance of the concrete scene is one. -/
theorem cm_hitDistance : -(1 / (1 : ℝ)) * Real.log cmU = 1 := by
  rw [cmU, Real.log_exp]
  norm_num

/-- C6 (amended): the full characterisation of ConstantMedium::hit on a
caller interval with finite bounds, given the two boundary hits: with c1 the
entry parameter clamped below by the interval minimum and by zero, c2 the
exit parameter clamped above by the interval maximum, and d the sampled
free-flight distance -ln(U)/density, the hit misses when d exceeds the
inside-segment length (c2 - c1) times the direction length, and otherwise
returns the record built by HitRecord::new at ray parameter c1 plus d over
the direction length, whose material is the medium's Isotropic phase
function over the albedo texture and whose front_face equals the sign test
of the ray's x component (it is not always true, because HitRecord::new
derives it from the arbitrary normal (1,0,0)). -/
theorem constant_medium_hit_spec
    (boundary : Ray → Interval → Option HitRecord) (density : ℝ) (texture : Texture)
    (gen : UnitVec3) (uRand : ℝ) (r : Ray) (ia ib : ℝ)
    (rec1 rec2 : HitRecord)
    (h1 : boundary r Interval.UNIVERSE = some rec1)
    (h2 : boundary r (Interval.new (↑(rec1.data.t + 0.0001)) ⊤) = some rec2)
    (hguard : Max.max rec1.data.t ia < Min.min rec2.data.t ib)
    (c1 : ℝ) (hc1 : c1 = Max.max (Max.max rec1.data.t ia) 0)
    (c2 : ℝ) (hc2 : c2 = Min.min rec2.data.t ib)
    (d : ℝ) (hd : d = -(1 / density) * Real.log uRand) :
    (d > (c2 - c1) * r.direction.length →
      constantMediumWithTexHit boundary density texture gen uRand r
        (Interval.fromRange ↑ia ↑ib) = none)
    ∧ (d ≤ (c2 - c1) * r.direction.length →
      constantMediumWithTexHit boundary density texture gen uRand r
        (Interval.fromRange ↑ia ↑ib) =
        some (HitRecord.new (r.at (c1 + d / r.direction.length))
          (UnitVec3.fromVec3Raw ⟨1, 0, 0⟩) (isotropicMaterial texture gen)
          (c1 + d / r.direction.length) 0 0 r)
      ∧ (HitRecord.new (r.at (c1 + d / r.direction.length))
          (UnitVec3.fromVec3Raw ⟨1, 0, 0⟩) (isotropicMaterial texture gen)
          (c1 + d / r.direction.length) 0 0 r).mat = isotropicMaterial texture gen
      ∧ (HitRecord.new (r.at (c1 + d / r.direction.length))
          (UnitVec3.fromVec3Raw ⟨1, 0, 0⟩) (isotropicMaterial texture gen)
          (c1 + d / r.direction.length) 0 0 r).data.frontFace
          = decide (r.direction.x < 0)) := by
  have hnotguard : ¬ ((Max.max (↑rec1.data.t) ((Interval.fromRange (↑ia) (↑ib)).min) : EReal)
      ≥ Min.min (↑rec2.data.t) ((Interval.fromRange (↑ia) (↑ib)).max)) := by
    show ¬ ((Max.max (↑rec1.data.t) (↑ia) : EReal) ≥ Min.min (↑rec2.data.t) (↑ib))
    rw [← erealCoeMax, ← erealCoeMin]
    exact not_le.mpr (EReal.coe_lt_coe_iff.mpr hguard)
  have ht2 : (Min.min (↑rec2.data.t) ((Interval.fromRange (↑ia) (↑ib)).max) : EReal).toReal
      = c2 := by
    show (Min.min (↑rec2.data.t) (↑ib) : EReal).toReal = c2
    rw [← erealCoeMin, EReal.toReal_coe, hc2]
  have ht1 : (Max.max (Max.max (↑rec1.data.t) ((Interval.fromRange (↑ia) (↑ib)).min)) 0
      : EReal).toReal = c1 := by
    show (Max.max (Max.max (↑rec1.data.t) (↑ia)) 0 : EReal).toReal = c1
    rw [← EReal.coe_zero, ← erealCoeMax, ← erealCoeMax, EReal.toReal_coe, hc1]
  have hffeq : (HitRecord.new (r.at (c1 + d / r.direction.length))
      (UnitVec3.fromVec3Raw ⟨1, 0, 0⟩) (isotropicMaterial texture gen)
      (c1 + d / r.direction.length) 0 0 r).data.frontFace
      = decide (r.direction.x < 0) := by
    have hdoteq : r.direction.dot (⟨1, 0, 0⟩ : Vec3) = r.direction.x := by
      unfold Vec3.dot
      ring
    simp only [HitRecord.new, UnitVec3.fromVec3Raw]
    exact decide_eq_decide.mpr (by rw [hdoteq])
  constructor
  · intro hgt
    simp only [constantMediumWithTexHit, constantMediumHit, h1, h2]
    rw [if_neg hnotguard]
    rw [ht1, ht2, ← hd]
    rw [if_pos hgt]
  · intro hle
    refine ⟨?_, rfl, hffeq⟩
    simp only [constantMediumWithTexHit, constantMediumHit, h1, h2]
    rw [if_neg hnotguard]
    rw [ht1, ht2, ← hd]
    rw [if_neg (not_lt.mpr hle)]

/-- C6 witness: the amended theorem at the concrete scene (entry one, exit
three, density one, free-flight draw exp(-1), interval 0 to 100). -/
theorem constant_medium_hit_spec_witness :
    constantMediumWithTexHit cmBoundary 1 cmTexW cmGen cmU cmRay cmInterval =
      some (HitRecord.new (cmRay.at (1 + 1 / cmRay.direction.length))
        (UnitVec3.fromVec3Raw ⟨1, 0, 0⟩) (isotropicMaterial cmTexW cmGen)
        (1 + 1 / cmRay.direction.length) 0 0 cmRay) := by
  have h := constant_medium_hit_spec cmBoundary 1 cmTexW cmGen cmU cmRay 0 100
    cmRec1 cmRec2 cmBoundary_universe cmBoundary_second
    (by show Max.max (1 : ℝ) 0 < Min.min (3 : ℝ) 100; norm_num)
    1 (by show (1 : ℝ) = Max.max (Max.max (1 : ℝ) 0) 0; norm_num)
    3 (by show (3 : ℝ) = Min.min (3 : ℝ) 100; norm_num)
    1 cm_hitDistance.symm
  have hle : (1 : ℝ) ≤ ((3 : ℝ) - 1) * cmRay.direction.length := by
    rw [cmRay_length]
    norm_num
  exact (h.2 hle).1

/-- C6 (counterexample): on the concrete scene whose ray direction has a
positive x component the record returned by ConstantMedium::hit carries
front_face false, refuting the claim that the front_face field is always
true. -/
theorem constant_medium_frontface_not_true :
    Option.map (fun rec => rec.data.frontFace)
      (constantMediumWithTexHit cmBoundary 1 cmTexW cmGen cmU cmRay cmInterval)
      = some false := by
  have hnotguard : ¬ ((Max.max ((1 : ℝ) : EReal) cmInterval.min)
      ≥ Min.min ((3 : ℝ) : EReal) cmInterval.max) := by
    show ¬ ((Max.max ((1 : ℝ) : EReal) (↑(0 : ℝ))) ≥ Min.min ((3 : ℝ) : EReal) (↑(100 : ℝ)))
    rw [← erealCoeMax, ← erealCoeMin]
    refine not_le.mpr (EReal.coe_lt_coe_iff.mpr ?_)
    norm_num
  have ht2 : (Min.min ((3 : ℝ) : EReal) cmInterval.max).toReal = 3 := by
    show (Min.min ((3 : ℝ) : EReal) (↑(100 : ℝ))).toReal = 3
    rw [← erealCoeMin, EReal.toReal_coe]
    norm_num
  have ht1 : (Max.max (Max.max ((1 : ℝ) : EReal) cmInterval.min) 0).toReal = 1 := by
    show (Max.max (Max.max ((1 : ℝ) : EReal) (↑(0 : ℝ))) 0).toReal = 1
    rw [← EReal.coe_zero, ← erealCoeMax, ← erealCoeMax, EReal.toReal_coe]
    norm_num
  have hnogt : ¬ (-(1 / (1 : ℝ)) * Real.log cmU > (3 - 1) * cmRay.direction.length) := by
    rw [cm_hitDistance, cmRay_length]
    norm_num
  simp only [constantMediumWithTexHit, constantMediumHit,
    cmBoundary_universe, cmBoundary_second,
    show cmRec1.data.t = (1 : ℝ) from rfl, show cmRec2.data.t = (3 : ℝ) from rfl]
  rw [if_neg hnotguard, ht1, ht2, if_neg hnogt]
  simp only [Option.map_some']
  congr 1
  simp only [HitRecord.new, UnitVec3.fromVec3Raw]
  have : ¬ (cmRay.direction.dot (⟨1, 0, 0⟩ : Vec3) < 0) := by
    show ¬ ((1 : ℝ) * 1 + 0 * 0 + 0 * 0 < 0)
    norm_num
  simp [this]

/-! ## BVH versus flat list (src/bvh.rs, src/hits.rs)

The leaves of the hierarchy are arbitrary dyn Hittable objects; they are
modelled by the Hittable-protocol semantics of the data model: a leaf is a
set of candidate ray parameters per ray together with a bounding box, its
hit method returns the closest candidate inside the queried interval, and
its geometric contract (bounding-box soundness) is a hypothesis.  The claim
compares the ray parameter of the two hit results, so the leaf hit is
modelled by that parameter. -/

/-- Strict order on the slab multiplier transfers through EReal. -/
theorem erealAffineLe {o c : ℝ} (hc : 0 < c) {a b : EReal} (hab : a ≤ b) :
    (a - ↑o) * ↑c ≤ (b - ↑o) * ↑c :=
  mul_le_mul_of_nonneg_right (EReal.sub_le_sub hab (le_refl _))
    (EReal.coe_nonneg.mpr hc.le)

/-- The slab multiplier is antitone for a negative direction inverse. -/
theorem erealAffineGe {o c : ℝ} (hc : c < 0) {a b : EReal} (hab : a ≤ b) :
    (b - ↑o) * ↑c ≤ (a - ↑o) * ↑c := by
  have h := erealAffineLe (o := o) (c := -c) (neg_pos.mpr hc) hab
  rw [EReal.coe_neg, mul_neg, mul_neg] at h
  exact EReal.neg_le_neg_iff.mp h

theorem Interval.subset_trans {a b c : Interval} (h1 : a.subset b) (h2 : b.subset c) :
    a.subset c :=
  ⟨le_trans h2.1 h1.1, le_trans h1.2 h2.2⟩

/-- A per-axis slab interval grows with the box axis interval, provided the
direction component is nonzero (so that the real-division model is faithful)
and the smaller axis interval is proper (min at most max, the AABB
invariant). -/
theorem slabAxis_subset {ax ax' : Interval} {o d : ℝ} (hd : d ≠ 0)
    (hax : ax.min ≤ ax.max) (hsub : ax.subset ax') :
    (slabAxis ax o d).subset (slabAxis ax' o d) := by
  have hc : (1 / d : ℝ) ≠ 0 := one_div_ne_zero hd
  rcases hc.lt_or_lt with hneg | hpos
  · have ht0 : (ax.min - ↑o) * ↑(1 / d) ≤ (ax'.min - ↑o) * ↑(1 / d) :=
      erealAffineGe hneg hsub.1
    have ht1 : (ax'.max - ↑o) * ↑(1 / d) ≤ (ax.max - ↑o) * ↑(1 / d) :=
      erealAffineGe hneg hsub.2
    have hflip : (ax.max - ↑o) * ↑(1 / d) ≤ (ax.min - ↑o) * ↑(1 / d) :=
      erealAffineGe hneg hax
    constructor
    · show Min.min _ _ ≤ Min.min _ _
      exact le_trans (min_le_right _ _) (by rw [min_eq_right hflip] at *; exact ht1)
    · show Max.max _ _ ≤ Max.max _ _
      exact le_trans (by rw [max_eq_left hflip] at *; exact ht0) (le_max_left _ _)
  · have ht0 : (ax'.min - ↑o) * ↑(1 / d) ≤ (ax.min - ↑o) * ↑(1 / d) :=
      erealAffineLe hpos hsub.1
    have ht1 : (ax.max - ↑o) * ↑(1 / d) ≤ (ax'.max - ↑o) * ↑(1 / d) :=
      erealAffineLe hpos hsub.2
    have hord : (ax.min - ↑o) * ↑(1 / d) ≤ (ax.max - ↑o) * ↑(1 / d) :=
      erealAffineLe hpos hax
    constructor
    · show Min.min _ _ ≤ Min.min _ _
      exact le_trans (min_le_left _ _) (by rw [min_eq_left hord]; exact ht0)
    · show Max.max _ _ ≤ Max.max _ _
      exact le_trans (by rw [max_eq_right hord]; exact ht1) (le_max_right _ _)

/-- Intersection result characterisation: success requires the left operand
to be proper. -/
theorem Interval.intersect_some_proper {a b c : Interval}
    (h : Interval.intersect a b = some c) : a.min ≤ a.max := by
  unfold Interval.intersect at h
  by_cases hle : Max.max a.min b.min ≤ Min.min a.max b.max
  · exact le_trans (le_max_left _ _) (le_trans hle (min_le_left _ _))
  · rw [if_neg hle] at h
    exact Option.noConfusion h

/-- Intersection is monotone in both operands, in the strong form needed to
chain the per-axis folds. -/
theorem Interval.intersect_some_mono {a a' b b' c : Interval}
    (ha : a.subset a') (hb : b.subset b')
    (h : Interval.intersect a b = some c) :
    ∃ c', Interval.intersect a' b' = some c' ∧ c.subset c' := by
  unfold Interval.intersect at *
  by_cases hle : Max.max a.min b.min ≤ Min.min a.max b.max
  · rw [if_pos hle] at h
    have hc := Option.some.inj h
    have hle' : Max.max a'.min b'.min ≤ Min.min a'.max b'.max :=
      le_trans (max_le_max ha.1 hb.1) (le_trans hle (min_le_min ha.2 hb.2))
    refine ⟨⟨Max.max a'.min b'.min, Min.min a'.max b'.max⟩, by rw [if_pos hle'], ?_⟩
    rw [← hc]
    exact ⟨max_le_max ha.1 hb.1, min_le_min ha.2 hb.2⟩
  · rw [if_neg hle] at h
    exact Option.noConfusion h

/-- Componentwise AABB inclusion. -/
def AABB.subset (a b : AABB) : Prop :=
  a.x.subset b.x ∧ a.y.subset b.y ∧ a.z.subset b.z

/-- The AABB invariant: every axis interval is proper. -/
def AABB.proper (b : AABB) : Prop :=
  b.x.min ≤ b.x.max ∧ b.y.min ≤ b.y.max ∧ b.z.min ≤ b.z.max

theorem AABB.subsetTrans {a b c : AABB} (h1 : a.subset b) (h2 : b.subset c) :
    a.subset c :=
  ⟨Interval.subset_trans h1.1 h2.1, Interval.subset_trans h1.2.1 h2.2.1,
    Interval.subset_trans h1.2.2 h2.2.2⟩

/-- The slab test is monotone in the box: if a proper box passes, any
enclosing box passes, for rays with nonzero direction components. -/
theorem AABB.hit_mono {A B : AABB} {r : Ray} {I : Interval}
    (hdx : r.direction.x ≠ 0) (hdy : r.direction.y ≠ 0) (hdz : r.direction.z ≠ 0)
    (hA : A.proper) (hsub : A.subset B)
    (hhit : AABB.hit A r I = true) : AABB.hit B r I = true := by
  unfold AABB.hit at hhit ⊢
  obtain ⟨i3, h3⟩ := Option.isSome_iff_exists.mp hhit
  obtain ⟨i2, h2, h23⟩ := Option.bind_eq_some.mp h3
  obtain ⟨i1, h1, h12⟩ := Option.bind_eq_some.mp h2
  have sx := slabAxis_subset (o := r.origin.x) hdx hA.1 hsub.1
  have sy := slabAxis_subset (o := r.origin.y) hdy hA.2.1 hsub.2.1
  have sz := slabAxis_subset (o := r.origin.z) hdz hA.2.2 hsub.2.2
  obtain ⟨j1, hj1, hij1⟩ := Interval.intersect_some_mono (Interval.subset_refl I) sx h1
  obtain ⟨j2, hj2, hij2⟩ := Interval.intersect_some_mono hij1 sy h12
  obtain ⟨j3, hj3, _⟩ := Interval.intersect_some_mono hij2 sz h23
  apply Option.isSome_iff_exists.mpr
  exact ⟨j3, Option.bind_eq_some.mpr ⟨j2, Option.bind_eq_some.mpr ⟨j1, hj1, hj2⟩, hj3⟩⟩

/-- A successful slab test forces the queried interval to be proper. -/
theorem AABB.hit_proper {A : AABB} {r : Ray} {I : Interval}
    (hhit : AABB.hit A r I = true) : I.min ≤ I.max := by
  unfold AABB.hit at hhit
  obtain ⟨i3, h3⟩ := Option.isSome_iff_exists.mp hhit
  obtain ⟨i2, h2, _⟩ := Option.bind_eq_some.mp h3
  obtain ⟨i1, h1, _⟩ := Option.bind_eq_some.mp h2
  exact Interval.intersect_some_proper h1

instance : Std.Antisymm (fun a b : ℝ => a ≤ b) := ⟨@fun _ _ h1 h2 => le_antisymm h1 h2⟩

/-- The characterisation of the minimum of a list of reals. -/
theorem rmin_eq_some_iff {xs : List ℝ} {a : ℝ} :
    xs.min? = some a ↔ a ∈ xs ∧ ∀ b ∈ xs, a ≤ b :=
  List.min?_eq_some_iff (fun _ => le_refl _) (fun _ _ => min_choice _ _)
    (fun _ _ _ => le_min_iff)

/-- The minimum of a list of reals is invariant under permutation. -/
theorem rmin_perm {l₁ l₂ : List ℝ} (h : l₁.Perm l₂) : l₁.min? = l₂.min? := by
  rcases hm : l₂.min? with _ | a
  · rw [List.min?_eq_none_iff] at hm ⊢
    rw [hm] at h
    exact h.eq_nil
  · obtain ⟨hmem, hmin⟩ := rmin_eq_some_iff.mp hm
    exact rmin_eq_some_iff.mpr
      ⟨h.mem_iff.mpr hmem, fun b hb => hmin b (h.mem_iff.mp hb)⟩

/-- A dyn Hittable leaf modelled by the Hittable protocol: its candidate
intersection parameters per ray, and its bounding box. -/
structure Leaf where
  ts : Ray → List ℝ
  bbox : AABB

/-- Interval membership of a real ray parameter. -/
def Interval.containsR (s : Interval) (t : ℝ) : Prop := s.contains ↑t

noncomputable instance Interval.containsDecidable (s : Interval) (x : EReal) :
    Decidable (s.contains x) :=
  inferInstanceAs (Decidable (s.min ≤ x ∧ x ≤ s.max))

noncomputable instance Interval.containsRDecidable (s : Interval) (t : ℝ) :
    Decidable (s.containsR t) :=
  inferInstanceAs (Decidable (s.contains ↑t))

/-- The protocol hit of a leaf: the closest candidate inside the interval. -/
noncomputable def leafHit (ℓ : Leaf) (r : Ray) (interval : Interval) : Option ℝ :=
  ((ℓ.ts r).filter (fun t => decide (interval.containsR t))).min?

/-- Hittables::hit (src/hits.rs): query every child with the same interval
and keep the hit of smallest ray parameter (min_by on t). -/
noncomputable def Hittables.hit (objects : List Leaf) (r : Ray)
    (interval : Interval) : Option ℝ :=
  (objects.filterMap (fun ℓ => leafHit ℓ r interval)).min?

/-- All candidate parameters of a leaf list inside an interval. -/
noncomputable def allTs (objects : List Leaf) (r : Ray) (interval : Interval) :
    List ℝ :=
  objects.flatMap (fun ℓ => (ℓ.ts r).filter (fun t => decide (interval.containsR t)))

theorem mem_allTs {objects : List Leaf} {r : Ray} {interval : Interval} {t : ℝ} :
    t ∈ allTs objects r interval ↔
      ∃ ℓ ∈ objects, t ∈ ℓ.ts r ∧ interval.containsR t := by
  unfold allTs
  rw [List.mem_flatMap]
  constructor
  · rintro ⟨ℓ, hℓ, hmem⟩
    rw [List.mem_filter] at hmem
    exact ⟨ℓ, hℓ, hmem.1, of_decide_eq_true hmem.2⟩
  · rintro ⟨ℓ, hℓ, hts, hcont⟩
    exact ⟨ℓ, hℓ, List.mem_filter.mpr ⟨hts, decide_eq_true hcont⟩⟩

/-- The flat list hit equals the minimum of all candidates in the interval:
the minimum of the per-leaf minima is the global minimum. -/
theorem hittables_hit_eq_allTs (objects : List Leaf) (r : Ray)
    (interval : Interval) :
    Hittables.hit objects r interval = (allTs objects r interval).min? := by
  rcases hm : (allTs objects r interval).min? with _ | a
  · rw [List.min?_eq_none_iff] at hm
    unfold Hittables.hit
    rw [List.min?_eq_none_iff, List.filterMap_eq_nil_iff]
    intro ℓ hℓ
    unfold leafHit
    rw [List.min?_eq_none_iff, List.eq_nil_iff_forall_not_mem]
    intro t ht
    have hmem : t ∈ allTs objects r interval := by
      unfold allTs
      exact List.mem_flatMap.mpr ⟨ℓ, hℓ, ht⟩
    rw [hm] at hmem
    exact absurd hmem (List.not_mem_nil t)
  · obtain ⟨ha_mem, ha_min⟩ := rmin_eq_some_iff.mp hm
    obtain ⟨ℓ₀, hℓ₀, hfmem⟩ := List.mem_flatMap.mp ha_mem
    unfold Hittables.hit
    apply rmin_eq_some_iff.mpr
    constructor
    · apply List.mem_filterMap.mpr
      refine ⟨ℓ₀, hℓ₀, ?_⟩
      apply rmin_eq_some_iff.mpr
      refine ⟨hfmem, fun b hb => ?_⟩
      exact ha_min b (List.mem_flatMap.mpr ⟨ℓ₀, hℓ₀, hb⟩)
    · intro b hb
      obtain ⟨ℓ₁, hℓ₁, hlh⟩ := List.mem_filterMap.mp hb
      obtain ⟨hbmem, _⟩ := rmin_eq_some_iff.mp hlh
      exact ha_min b (List.mem_flatMap.mpr ⟨ℓ₁, hℓ₁, hbmem⟩)

/-- allTs distributes over list append. -/
theorem allTs_append (L1 L2 : List Leaf) (r : Ray) (interval : Interval) :
    allTs (L1 ++ L2) r interval = allTs L1 r interval ++ allTs L2 r interval := by
  unfold allTs
  exact List.flatMap_append L1 L2 _

/-- The BVH node shape of src/bvh.rs: children are either wrapped leaves
(the original dyn Hittable objects) or further nodes; the right child of a
single-object node is None, which is inlined as the node1 constructor. -/
inductive BVHT where
  | leaf (ℓ : Leaf)
  | node1 (left : BVHT) (bbox : AABB)
  | node2 (left : BVHT) (right : BVHT) (bbox : AABB)

/-- BVH::hit: reject on the node box slab test, query left with the full
interval, then right with the interval narrowed to the closest left hit
(Interval::new of the caller minimum and closest_so_far), preferring the
right result (hit_right.or(hit_left)).  On a wrapped leaf, dispatch to the
leaf's own hit. -/
noncomputable def bvhHit : BVHT → Ray → Interval → Option ℝ
  | .leaf ℓ, r, interval => leafHit ℓ r interval
  | .node1 left bbox, r, interval =>
    if AABB.hit bbox r interval then bvhHit left r interval else none
  | .node2 left right bbox, r, interval =>
    if AABB.hit bbox r interval then
      let hitLeft := bvhHit left r interval
      let closest : EReal :=
        match hitLeft with
        | some t => ↑t
        | none => interval.max
      (bvhHit right r (Interval.new interval.min closest)).or hitLeft
    else none

/-- The leaves of a BVH tree, in order. -/
def leaves : BVHT → List Leaf
  | .leaf ℓ => [ℓ]
  | .node1 l _ => leaves l
  | .node2 l rt _ => leaves l ++ leaves rt

/-- The bounding-box invariant of the hierarchy: every node's box encloses
the boxes of all leaves below it. -/
def BoxInv : BVHT → Prop
  | .leaf _ => True
  | .node1 l bbox => (∀ ℓ ∈ leaves l, AABB.subset ℓ.bbox bbox) ∧ BoxInv l
  | .node2 l rt bbox =>
      (∀ ℓ ∈ leaves l ++ leaves rt, AABB.subset ℓ.bbox bbox) ∧ BoxInv l ∧ BoxInv rt

/-- The geometric contract of a dyn Hittable leaf for a given ray: its
bounding box satisfies the AABB properness invariant and is sound, i.e. the
slab test on it succeeds for every interval in which the leaf reports a
candidate parameter. -/
def LeafOk (r : Ray) (ℓ : Leaf) : Prop :=
  ℓ.bbox.proper ∧
    ∀ interval : Interval, ∀ t ∈ ℓ.ts r, interval.containsR t →
      AABB.hit ℓ.bbox r interval = true

/-- A node box miss excludes every candidate of every leaf below it. -/
theorem allTs_nil_of_miss {r : Ray} {bbox : AABB} {L : List Leaf}
    {interval : Interval}
    (hdx : r.direction.x ≠ 0) (hdy : r.direction.y ≠ 0) (hdz : r.direction.z ≠ 0)
    (hcov : ∀ ℓ ∈ L, AABB.subset ℓ.bbox bbox)
    (hok : ∀ ℓ ∈ L, LeafOk r ℓ)
    (hbb : ¬ AABB.hit bbox r interval = true) :
    allTs L r interval = [] := by
  rw [List.eq_nil_iff_forall_not_mem]
  intro t ht
  obtain ⟨ℓ, hℓ, hts, hcont⟩ := mem_allTs.mp ht
  have hLok := hok ℓ hℓ
  exact hbb (AABB.hit_mono hdx hdy hdz hLok.1 (hcov ℓ hℓ) (hLok.2 interval t hts hcont))

/-- The heart of the equivalence: a BVH tree whose boxes satisfy the
invariant and whose leaves satisfy the Hittable contract computes, on every
interval, the minimum candidate parameter of its leaves in that interval -
the narrowed right query loses no hit because everything it excludes lies
beyond the closest left hit. -/
theorem bvhHit_eq_allTs {r : Ray}
    (hdx : r.direction.x ≠ 0) (hdy : r.direction.y ≠ 0) (hdz : r.direction.z ≠ 0) :
    ∀ T : BVHT, BoxInv T → (∀ ℓ ∈ leaves T, LeafOk r ℓ) →
      ∀ interval, bvhHit T r interval = (allTs (leaves T) r interval).min? := by
  intro T
  induction T with
  | leaf ℓ =>
    intro _ _ interval
    show leafHit ℓ r interval = _
    unfold leafHit allTs
    rw [show leaves (BVHT.leaf ℓ) = [ℓ] from rfl, List.flatMap_cons, List.flatMap_nil,
      List.append_nil]
  | node1 l bb ih =>
    intro hinv hok interval
    obtain ⟨hcov, hinvl⟩ := hinv
    show (if AABB.hit bb r interval then bvhHit l r interval else none) = _
    by_cases hbb : AABB.hit bb r interval = true
    · rw [if_pos hbb]
      exact ih hinvl hok interval
    · rw [if_neg hbb]
      show _ = (allTs (leaves l) r interval).min?
      rw [allTs_nil_of_miss hdx hdy hdz hcov hok hbb]
      rfl
  | node2 l rt bbox ihl ihr =>
    intro hinv hok interval
    obtain ⟨hcov, hinvl, hinvr⟩ := hinv
    have hokl : ∀ ℓ ∈ leaves l, LeafOk r ℓ :=
      fun ℓ h => hok ℓ (List.mem_append.mpr (Or.inl h))
    have hokr : ∀ ℓ ∈ leaves rt, LeafOk r ℓ :=
      fun ℓ h => hok ℓ (List.mem_append.mpr (Or.inr h))
    show bvhHit (.node2 l rt bbox) r interval = (allTs (leaves l ++ leaves rt) r interval).min?
    by_cases hbb : AABB.hit bbox r interval = true
    · have hIproper : interval.min ≤ interval.max := AABB.hit_proper hbb
      have hL := ihl hinvl hokl interval
      rw [allTs_append]
      rcases hmL : (allTs (leaves l) r interval).min? with _ | tL
      · have hLv : bvhHit l r interval = none := by rw [hL, hmL]
        have hnew : Interval.new interval.min interval.max = interval := by
          unfold Interval.new
          rcases interval with ⟨mn, mx⟩
          simp only at hIproper ⊢
          rw [min_eq_left hIproper, max_eq_right hIproper]
        have hnill : allTs (leaves l) r interval = [] :=
          List.min?_eq_none_iff.mp hmL
        simp only [bvhHit, if_pos hbb, hLv, hnew, Option.or_none]
        rw [hnill, List.nil_append]
        exact ihr hinvr hokr interval
      · obtain ⟨htLmem, htLmin⟩ := rmin_eq_some_iff.mp hmL
        obtain ⟨ℓL, _, _, hcontL⟩ := mem_allTs.mp htLmem
        have hLv : bvhHit l r interval = some tL := by rw [hL, hmL]
        have hnew : Interval.new interval.min ↑tL =
            Interval.fromRange interval.min ↑tL := by
          unfold Interval.new Interval.fromRange
          rw [min_eq_left hcontL.1, max_eq_right hcontL.1]
        have hmemI : ∀ t : ℝ, (Interval.fromRange interval.min ↑tL).containsR t ↔
            interval.containsR t ∧ t ≤ tL := by
          intro t
          unfold Interval.containsR Interval.contains Interval.fromRange
          constructor
          · rintro ⟨h1, h2⟩
            have htle : t ≤ tL := EReal.coe_le_coe_iff.mp h2
            exact ⟨⟨h1, le_trans h2 hcontL.2⟩, htle⟩
          · rintro ⟨⟨h1, _⟩, h3⟩
            exact ⟨h1, EReal.coe_le_coe_iff.mpr h3⟩
        have hR := ihr hinvr hokr (Interval.fromRange interval.min ↑tL)
        rcases hmR : (allTs (leaves rt) r (Interval.fromRange interval.min ↑tL)).min?
          with _ | tR
        · have hRv : bvhHit rt r (Interval.fromRange interval.min ↑tL) = none := by
            rw [hR, hmR]
          have hnilr := List.min?_eq_none_iff.mp hmR
          simp only [bvhHit, if_pos hbb, hLv, hnew, hRv, Option.none_or]
          symm
          apply rmin_eq_some_iff.mpr
          refine ⟨List.mem_append.mpr (Or.inl htLmem), ?_⟩
          intro b hb
          rcases List.mem_append.mp hb with hbl | hbr
          · exact htLmin b hbl
          · by_cases hble : b ≤ tL
            · exfalso
              obtain ⟨ℓb, hℓb, hbts, hbcont⟩ := mem_allTs.mp hbr
              have : b ∈ allTs (leaves rt) r (Interval.fromRange interval.min ↑tL) :=
                mem_allTs.mpr ⟨ℓb, hℓb, hbts, (hmemI b).mpr ⟨hbcont, hble⟩⟩
              rw [hnilr] at this
              exact absurd this (List.not_mem_nil b)
            · exact le_of_not_le hble
        · obtain ⟨htRmem, htRmin⟩ := rmin_eq_some_iff.mp hmR
          obtain ⟨ℓR, hℓR, hRts, hRcont⟩ := mem_allTs.mp htRmem
          have hRsplit := (hmemI tR).mp hRcont
          have hRv : bvhHit rt r (Interval.fromRange interval.min ↑tL) = some tR := by
            rw [hR, hmR]
          simp only [bvhHit, if_pos hbb, hLv, hnew, hRv]
          rw [show (Option.or (some tR) (some tL)) = some tR from rfl]
          symm
          apply rmin_eq_some_iff.mpr
          constructor
          · exact List.mem_append.mpr (Or.inr (mem_allTs.mpr ⟨ℓR, hℓR, hRts, hRsplit.1⟩))
          · intro b hb
            rcases List.mem_append.mp hb with hbl | hbr
            · exact le_trans hRsplit.2 (htLmin b hbl)
            · obtain ⟨ℓb, hℓb, hbts, hbcont⟩ := mem_allTs.mp hbr
              by_cases hble : b ≤ tL
              · exact htRmin b (mem_allTs.mpr ⟨ℓb, hℓb, hbts, (hmemI b).mpr ⟨hbcont, hble⟩⟩)
              · exact le_trans hRsplit.2 (le_trans (le_of_not_le hble) (le_refl b))
    · have hnil := allTs_nil_of_miss hdx hdy hdz hcov hok hbb
      simp only [bvhHit, if_neg hbb]
      rw [hnil]
      rfl

/-- Interval union contains its left operand. -/
theorem Interval.subset_union_left (s t : Interval) : s.subset (s.union t) :=
  ⟨min_le_left _ _, le_max_left _ _⟩

/-- Interval union contains its right operand. -/
theorem Interval.subset_union_right (s t : Interval) : t.subset (s.union t) :=
  ⟨min_le_right _ _, le_max_right _ _⟩

theorem AABB.subsetUnionLeft (a b : AABB) : a.subset (a.union b) :=
  ⟨Interval.subset_union_left _ _, Interval.subset_union_left _ _,
    Interval.subset_union_left _ _⟩

theorem AABB.subsetUnionRight (a b : AABB) : b.subset (a.union b) :=
  ⟨Interval.subset_union_right _ _, Interval.subset_union_right _ _,
    Interval.subset_union_right _ _⟩

/-- The bounding-box fold of BVH::from_vec. -/
noncomputable def foldBox (objects : List Leaf) : AABB :=
  objects.foldl (fun acc ℓ => AABB.union acc ℓ.bbox) AABB.EMPTY

theorem foldl_union_mono (L : List Leaf) :
    ∀ (init : AABB) (b : AABB), b.subset init →
      b.subset (L.foldl (fun acc ℓ => AABB.union acc ℓ.bbox) init) := by
  induction L with
  | nil => intro init b h; exact h
  | cons a L ih =>
    intro init b h
    exact ih _ b (AABB.subsetTrans h (AABB.subsetUnionLeft init a.bbox))

theorem subset_foldl_of_mem (L : List Leaf) :
    ∀ (init : AABB) (ℓ : Leaf), ℓ ∈ L →
      AABB.subset ℓ.bbox (L.foldl (fun acc ℓ => AABB.union acc ℓ.bbox) init) := by
  induction L with
  | nil => intro init ℓ h; exact absurd h (List.not_mem_nil ℓ)
  | cons a L ih =>
    intro init ℓ h
    rcases List.mem_cons.mp h with rfl | hmem
    · exact foldl_union_mono L _ _ (AABB.subsetUnionRight init ℓ.bbox)
    · exact ih _ ℓ hmem

/-- Every member's box is inside the from_vec fold box. -/
theorem subset_foldBox {objects : List Leaf} {ℓ : Leaf} (h : ℓ ∈ objects) :
    AABB.subset ℓ.bbox (foldBox objects) :=
  subset_foldl_of_mem objects AABB.EMPTY ℓ h

/-- BVH::box_compare as the Boolean sort key on the chosen axis minimum;
total_cmp imposes a total order on f64, mirrored here by the EReal order
(only the induced permutation matters to the equivalence). -/
noncomputable def boxCompare (axis : ℕ) (a b : Leaf) : Bool :=
  decide ((a.bbox.axisInterval axis).min ≤ (b.bbox.axisInterval axis).min)

/-- BVH::from_vec: the union box of all objects, the longest-axis sort for
three or more objects, the midpoint split, and the recursive construction;
one object yields a right-less node (node1), two yield a two-leaf node in
list order.  The empty-list panic is the none result. -/
noncomputable def fromVec (objects : List Leaf) : Option BVHT :=
  match objects with
  | [] => none
  | [a] => some (.node1 (.leaf a) (foldBox [a]))
  | [a, b] => some (.node2 (.leaf a) (.leaf b) (foldBox [a, b]))
  | x :: y :: z :: rest =>
    let bbox := foldBox (x :: y :: z :: rest)
    let axis := bbox.longestAxis
    let sorted := (x :: y :: z :: rest).mergeSort (boxCompare axis)
    let mid := (x :: y :: z :: rest).length / 2
    match fromVec (sorted.take mid), fromVec (sorted.drop mid) with
    | some ltree, some rtree => some (.node2 ltree rtree bbox)
    | _, _ => none
termination_by objects.length
decreasing_by
  · simp [List.length_take, List.length_mergeSort]
    omega
  · simp [List.length_drop, List.length_mergeSort]
    omega

/-- from_vec succeeds on every non-empty list. -/
theorem fromVec_isSome :
    ∀ (n : ℕ) (objects : List Leaf), objects.length ≤ n → objects ≠ [] →
      (fromVec objects).isSome = true := by
  intro n
  induction n with
  | zero =>
    intro objects hlen hne
    rcases objects with _ | ⟨a, rest⟩
    · exact absurd rfl hne
    · simp at hlen
  | succ n ih =>
    intro objects hlen hne
    match objects with
    | [] => exact absurd rfl hne
    | [a] => simp [fromVec]
    | [a, b] => simp [fromVec]
    | x :: y :: z :: rest =>
      rw [fromVec]
      have hlen3 : 3 ≤ (x :: y :: z :: rest).length := by simp
      have hmid1 : 1 ≤ (x :: y :: z :: rest).length / 2 := by omega
      have hmidlt : (x :: y :: z :: rest).length / 2 < (x :: y :: z :: rest).length := by
        omega
      have hsortlen : ((x :: y :: z :: rest).mergeSort
          (boxCompare (foldBox (x :: y :: z :: rest)).longestAxis)).length
          = (x :: y :: z :: rest).length := List.length_mergeSort _
      have htake : (((x :: y :: z :: rest).mergeSort
          (boxCompare (foldBox (x :: y :: z :: rest)).longestAxis)).take
            ((x :: y :: z :: rest).length / 2)).length
          = (x :: y :: z :: rest).length / 2 := by
        rw [List.length_take, hsortlen]
        omega
      have hdrop : (((x :: y :: z :: rest).mergeSort
          (boxCompare (foldBox (x :: y :: z :: rest)).longestAxis)).drop
            ((x :: y :: z :: rest).length / 2)).length
          = (x :: y :: z :: rest).length - (x :: y :: z :: rest).length / 2 := by
        rw [List.length_drop, hsortlen]
      have hts : (fromVec (((x :: y :: z :: rest).mergeSort
          (boxCompare (foldBox (x :: y :: z :: rest)).longestAxis)).take
            ((x :: y :: z :: rest).length / 2))).isSome = true := by
        apply ih
        · rw [htake]; omega
        · intro hnil
          rw [hnil] at htake
          simp at htake
          omega
      have hds : (fromVec (((x :: y :: z :: rest).mergeSort
          (boxCompare (foldBox (x :: y :: z :: rest)).longestAxis)).drop
            ((x :: y :: z :: rest).length / 2))).isSome = true := by
        apply ih
        · rw [hdrop]; omega
        · intro hnil
          rw [hnil] at hdrop
          simp at hdrop
          omega
      obtain ⟨lt, hlt⟩ := Option.isSome_iff_exists.mp hts
      obtain ⟨rt, hrt⟩ := Option.isSome_iff_exists.mp hds
      rw [hlt, hrt]
      rfl

/-- from_vec builds a tree whose leaves are a permutation of the input and
whose boxes satisfy the bounding invariant. -/
theorem fromVec_spec :
    ∀ (n : ℕ) (objects : List Leaf), objects.length ≤ n →
      ∀ T, fromVec objects = some T → (leaves T).Perm objects ∧ BoxInv T := by
  intro n
  induction n with
  | zero =>
    intro objects hlen T hT
    rcases objects with _ | ⟨a, rest⟩
    · rw [fromVec] at hT
      exact Option.noConfusion hT
    · simp at hlen
  | succ n ih =>
    intro objects hlen T hT
    match objects with
    | [] =>
      rw [fromVec] at hT
      exact Option.noConfusion hT
    | [a] =>
      rw [fromVec] at hT
      have hTeq : BVHT.node1 (.leaf a) (foldBox [a]) = T := Option.some.inj hT
      subst hTeq
      refine ⟨List.Perm.refl _, ?_, trivial⟩
      intro ℓ hℓ
      have : ℓ = a := by
        rcases List.mem_singleton.mp hℓ with rfl
        rfl
      subst this
      exact subset_foldBox (List.mem_singleton.mpr rfl)
    | [a, b] =>
      rw [fromVec] at hT
      have hTeq : BVHT.node2 (.leaf a) (.leaf b) (foldBox [a, b]) = T := Option.some.inj hT
      subst hTeq
      refine ⟨List.Perm.refl _, ?_, trivial, trivial⟩
      intro ℓ hℓ
      exact subset_foldBox (by simpa [leaves] using hℓ)
    | x :: y :: z :: rest =>
      rw [fromVec] at hT
      rcases hlt : fromVec (((x :: y :: z :: rest).mergeSort
          (boxCompare (foldBox (x :: y :: z :: rest)).longestAxis)).take
            ((x :: y :: z :: rest).length / 2)) with _ | lt
      · rw [hlt] at hT; exact Option.noConfusion hT
      rcases hrt : fromVec (((x :: y :: z :: rest).mergeSort
          (boxCompare (foldBox (x :: y :: z :: rest)).longestAxis)).drop
            ((x :: y :: z :: rest).length / 2)) with _ | rt
      · rw [hlt, hrt] at hT; exact Option.noConfusion hT
      rw [hlt, hrt] at hT
      have hTeq : BVHT.node2 lt rt (foldBox (x :: y :: z :: rest)) = T :=
        Option.some.inj hT
      subst hTeq
      have hsortperm := List.mergeSort_perm (x :: y :: z :: rest)
        (boxCompare (foldBox (x :: y :: z :: rest)).longestAxis)
      have hsortlen : ((x :: y :: z :: rest).mergeSort
          (boxCompare (foldBox (x :: y :: z :: rest)).longestAxis)).length
          = (x :: y :: z :: rest).length := List.length_mergeSort _
      have hlen3 : 3 ≤ (x :: y :: z :: rest).length := by simp
      have hlt' := ih _ (by
          rw [List.length_take, hsortlen]
          have : (x :: y :: z :: rest).length ≤ n + 1 := hlen
          omega) lt hlt
      have hrt' := ih _ (by
          rw [List.length_drop, hsortlen]
          have : (x :: y :: z :: rest).length ≤ n + 1 := hlen
          omega) rt hrt
      have hperm : (leaves lt ++ leaves rt).Perm (x :: y :: z :: rest) := by
        have happ := List.Perm.append hlt'.1 hrt'.1
        rw [List.take_append_drop] at happ
        exact happ.trans hsortperm
      refine ⟨hperm, ?_, hlt'.2, hrt'.2⟩
      intro ℓ hℓ
      exact subset_foldBox (hperm.mem_iff.mp hℓ)

/-- C2: for every non-empty list of hittables (modelled by the Hittable
protocol: candidate parameter sets with sound, proper bounding boxes), every
ray with nonzero direction components, and every interval, BVH::from_vec
succeeds and the hierarchy's hit returns a hit with the same ray parameter
as the flat Hittables list - the closest candidate in the interval - or
both return None. -/
theorem bvh_hittables_equiv (objects : List Leaf) (hne : objects ≠ []) (r : Ray)
    (hdx : r.direction.x ≠ 0) (hdy : r.direction.y ≠ 0) (hdz : r.direction.z ≠ 0)
    (hok : ∀ ℓ ∈ objects, LeafOk r ℓ) (interval : Interval) :
    ∃ T, fromVec objects = some T ∧
      bvhHit T r interval = Hittables.hit objects r interval := by
  obtain ⟨T, hT⟩ := Option.isSome_iff_exists.mp
    (fromVec_isSome objects.length objects (le_refl _) hne)
  obtain ⟨hperm, hinv⟩ := fromVec_spec objects.length objects (le_refl _) T hT
  refine ⟨T, hT, ?_⟩
  rw [bvhHit_eq_allTs hdx hdy hdz T hinv
    (fun ℓ h => hok ℓ (hperm.mem_iff.mp h)) interval]
  rw [hittables_hit_eq_allTs]
  unfold allTs
  exact rmin_perm (List.Perm.flatMap_right _ hperm)

/-- A unit box with proper axis intervals for the witness leaves. -/
def wBox : AABB :=
  ⟨Interval.fromRange ((0 : ℝ) : EReal) ((1 : ℝ) : EReal),
   Interval.fromRange ((0 : ℝ) : EReal) ((1 : ℝ) : EReal),
   Interval.fromRange ((0 : ℝ) : EReal) ((1 : ℝ) : EReal)⟩

/-- A witness leaf with no candidate intersections. -/
def wLeafA : Leaf := ⟨fun _ => [], wBox⟩

/-- A second witness leaf with no candidate intersections. -/
def wLeafB : Leaf := ⟨fun _ => [], wBox⟩

/-- The witness ray, with all direction components nonzero. -/
def wRay : Ray := ⟨0, ⟨1, 1, 1⟩, 0⟩

/-- C2 witness: the equivalence theorem applied to a concrete two-leaf
scene over the integrator's shadow-acne interval. -/
theorem bvh_hittables_equiv_witness :
    ∃ T, fromVec [wLeafA, wLeafB] = some T ∧
      bvhHit T wRay shadowAcneInterval =
        Hittables.hit [wLeafA, wLeafB] wRay shadowAcneInterval := by
  have hok : ∀ ℓ ∈ [wLeafA, wLeafB], LeafOk wRay ℓ := by
    intro ℓ hℓ
    have hbox : ℓ.bbox = wBox := by
      rcases List.mem_cons.mp hℓ with rfl | h2
      · rfl
      · rcases List.mem_singleton.mp h2 with rfl
        rfl
    have hts : ℓ.ts wRay = [] := by
      rcases List.mem_cons.mp hℓ with rfl | h2
      · rfl
      · rcases List.mem_singleton.mp h2 with rfl
        rfl
    constructor
    · rw [hbox]
      refine ⟨?_, ?_, ?_⟩ <;> exact EReal.coe_le_coe_iff.mpr (by norm_num)
    · intro interval t ht
      rw [hts] at ht
      exact absurd ht (List.not_mem_nil t)
  exact bvh_hittables_equiv [wLeafA, wLeafB] (by simp) wRay
    (by norm_num [wRay]) (by norm_num [wRay]) (by norm_num [wRay]) hok
    shadowAcneInterval

end RT
